import Mathlib

/-!
# Verification of the `radix` sorting engine

A shallow embedding, in Lean 4, of the Go package `radix`
(MSD radix sort with a comparison-sort fallback), together with proofs
about its key transforms, shift estimator, partitioning engine,
index builder and consistency checker.

Collections are modelled as function states `f : Nat → α` with a pure
key function `key : α → Nat` (Go's `Key` is a `uint64`) and a pure
secondary comparison `less : α → α → Bool`; machine-integer arithmetic
is modelled on `Nat` with explicit wrap-around (`% 2^64`) where the Go
code can overflow.
-/

namespace Radix

universe u v

variable {α : Type u} {β : Type v}

/-! ## Generic bit-level helper lemmas -/

/-- Adding a power of two above all bits of `a` is a bitwise XOR. -/
theorem xor_two_pow_of_lt {a n : Nat} (h : a < 2 ^ n) : a ^^^ 2 ^ n = 2 ^ n + a := by
  apply Nat.eq_of_testBit_eq
  intro i
  rcases Nat.lt_trichotomy i n with hi | hi | hi
  · rw [Nat.testBit_xor, Nat.testBit_two_pow_of_ne (by omega),
      Nat.testBit_two_pow_add_gt hi]
    simp
  · subst hi
    rw [Nat.testBit_xor, Nat.testBit_two_pow_self, Nat.testBit_two_pow_add_eq,
      Nat.testBit_lt_two_pow h]
    simp
  · have h1 : a < 2 ^ i := lt_trans h (Nat.pow_lt_pow_right (by norm_num) hi)
    have h2 : 2 ^ n + a < 2 ^ i := by
      have : 2 ^ n + 2 ^ n ≤ 2 ^ i := by
        rw [← two_mul, ← pow_succ']
        exact Nat.pow_le_pow_right (by norm_num) hi
      omega
    rw [Nat.testBit_xor, Nat.testBit_two_pow_of_ne (by omega),
      Nat.testBit_lt_two_pow h1, Nat.testBit_lt_two_pow h2]
    rfl

/-- A number below `2 ^ n` has no set bits at positions `≥ n`. -/
theorem testBit_high_false {a n i : Nat} (h : a < 2 ^ n) (hi : n ≤ i) :
    a.testBit i = false :=
  Nat.testBit_lt_two_pow
    (lt_of_lt_of_le h (Nat.pow_le_pow_right (by norm_num) hi))

/-- XOR with an all-ones mask is subtraction from the mask. -/
theorem xor_two_pow_sub_one_of_lt {a n : Nat} (h : a < 2 ^ n) :
    a ^^^ (2 ^ n - 1) = 2 ^ n - 1 - a := by
  apply Nat.eq_of_testBit_eq
  intro i
  have hsub : 2 ^ n - 1 - a = 2 ^ n - (a + 1) := by omega
  rw [Nat.testBit_xor, Nat.testBit_two_pow_sub_one, hsub,
    Nat.testBit_two_pow_sub_succ h]
  by_cases hi : i < n
  · simp [hi]
  · have hb : a.testBit i = false := testBit_high_false h (by omega)
    simp [hi, hb]

/-- OR with an all-ones mask gives the mask. -/
theorem or_two_pow_sub_one_of_lt {a n : Nat} (h : a < 2 ^ n) :
    2 ^ n - 1 ||| a = 2 ^ n - 1 := by
  apply Nat.eq_of_testBit_eq
  intro i
  rw [Nat.testBit_or, Nat.testBit_two_pow_sub_one]
  by_cases hi : i < n
  · simp [hi]
  · have hb : a.testBit i = false := testBit_high_false h (by omega)
    simp [hi, hb]

/-! ## The float key transforms (Go file with the package-`sort` helpers)

Go source:
```
func Float64Key(f float64) Key {
    b := math.Float64bits(f)
    b ^= ^(b>>63 - 1) | (1 << 63)
    return Key(b)
}
```
We embed the transform on the raw IEEE-754 bit pattern `b` (a `uint64`,
modelled as a `Nat` below `2^64`).  Go's `^x` on `uint64` is
`x ^^^ (2^64 - 1)` and `b>>>63 - 1` wraps, i.e. is
`(b>>>63 + 2^64 - 1) % 2^64`. -/

/-- `Float64Key` of the Go code, acting on the `math.Float64bits` pattern. -/
def Float64Key (b : Nat) : Nat :=
  b ^^^ (((b >>> 63 + (2 ^ 64 - 1)) % 2 ^ 64 ^^^ (2 ^ 64 - 1)) ||| 1 <<< 63)

/-- Closed form of the float-key transform: set the sign bit of
non-negative patterns, flip all bits of negative patterns. -/
theorem float64Key_eq {b : Nat} (h : b < 2 ^ 64) :
    Float64Key b = if b < 2 ^ 63 then b + 2 ^ 63 else 2 ^ 64 - 1 - b := by
  unfold Float64Key
  by_cases hs : b < 2 ^ 63
  · have h63 : b >>> 63 = 0 := by
      rw [Nat.shiftRight_eq_div_pow]
      exact Nat.div_eq_of_lt hs
    rw [h63, if_pos hs]
    rw [Nat.zero_add, Nat.mod_eq_of_lt (by norm_num), Nat.xor_self, Nat.zero_or,
      Nat.one_shiftLeft, xor_two_pow_of_lt hs, Nat.add_comm]
  · have h63 : b >>> 63 = 1 := by
      rw [Nat.shiftRight_eq_div_pow]
      have h1 : 1 * 2 ^ 63 ≤ b := by omega
      have h2 : b < 2 * 2 ^ 63 := by norm_num; omega
      omega
    rw [h63, if_neg hs]
    have hm : (1 + (2 ^ 64 - 1)) % 2 ^ 64 = 0 := by norm_num
    rw [hm, Nat.zero_xor, Nat.one_shiftLeft,
      or_two_pow_sub_one_of_lt (by norm_num : (2:Nat) ^ 63 < 2 ^ 64),
      xor_two_pow_sub_one_of_lt h]

/-! IEEE-754 double-precision pattern anatomy. -/

/-- Biased exponent field of a double's bit pattern. -/
def f64exp (b : Nat) : Nat := b >>> 52 % 2 ^ 11

/-- Fraction (mantissa) field of a double's bit pattern. -/
def f64frac (b : Nat) : Nat := b % 2 ^ 52

/-- Sign bit of a double's bit pattern. -/
def f64sign (b : Nat) : Nat := b >>> 63

/-- A pattern is NaN iff the exponent is all ones and the fraction is nonzero. -/
def f64IsNaN (b : Nat) : Prop := f64exp b = 2 ^ 11 - 1 ∧ f64frac b ≠ 0

instance : DecidablePred f64IsNaN := fun _ => by unfold f64IsNaN; infer_instance

/-- A pattern is finite iff the exponent is not all ones. -/
def f64IsFinite (b : Nat) : Prop := f64exp b < 2 ^ 11 - 1

instance : DecidablePred f64IsFinite := fun _ => by unfold f64IsFinite; infer_instance

/-- Bit pattern of the maximum finite double. -/
def f64MaxFinite : Nat := 0x7FEFFFFFFFFFFFFF

/-- A sign-bit-zero pattern is numerically below `2 ^ 63`. -/
theorem lt_two_pow_63_of_sign_zero {b : Nat} (hs : f64sign b = 0) : b < 2 ^ 63 := by
  unfold f64sign at hs
  rw [Nat.shiftRight_eq_div_pow] at hs
  exact (Nat.div_eq_zero_iff (show 0 < 2 ^ 63 by norm_num)).mp hs

/-- **C2, counterexample**: the claim maps *every* NaN pattern (either sign
bit) above the maximum finite value's key, but a NaN pattern with sign bit 1
is complemented by the transform and receives one of the *smallest* keys:
it sorts before the maximum finite double, refuting the claim as stated. -/
theorem float64Key_negative_nan_counterexample :
    f64IsNaN 0xFFF0000000000001 ∧ f64sign 0xFFF0000000000001 = 1 ∧
    Float64Key 0xFFF0000000000001 < Float64Key f64MaxFinite := by
  refine ⟨by decide, by decide, ?_⟩
  have h1 : Float64Key 0xFFF0000000000001 = 2 ^ 64 - 1 - 0xFFF0000000000001 := by
    rw [float64Key_eq (by norm_num), if_neg (by norm_num)]
  have h2 : Float64Key f64MaxFinite = 0x7FEFFFFFFFFFFFFF + 2 ^ 63 := by
    rw [f64MaxFinite, float64Key_eq (by norm_num), if_pos (by norm_num)]
  rw [h1, h2]
  norm_num

/-- **C2 (amended)**: `Float64Key` orders all finite sign-1 patterns before
all finite sign-0 patterns, maps `-0.0` (pattern `2^63`) to the key
immediately below the key of `+0.0` (pattern `0`), and maps every NaN
pattern *whose sign bit is 0* to a key strictly greater than the key of the
maximum finite value.  (NaN patterns with sign bit 1 instead receive the
minimum keys, see the counterexample.) -/
theorem float64Key_order :
    (∀ b1 b2 : Nat, b1 < 2 ^ 64 → b2 < 2 ^ 64 → 2 ^ 63 ≤ b1 → f64IsFinite b1 →
      b2 < 2 ^ 63 → f64IsFinite b2 → Float64Key b1 < Float64Key b2) ∧
    Float64Key (2 ^ 63) + 1 = Float64Key 0 ∧
    (∀ b : Nat, b < 2 ^ 64 → f64IsNaN b → f64sign b = 0 →
      Float64Key f64MaxFinite < Float64Key b) := by
  refine ⟨?_, ?_, ?_⟩
  · intro b1 b2 h1 h2 hs1 _ hs2 _
    rw [float64Key_eq h1, if_neg (by omega), float64Key_eq h2, if_pos hs2]
    omega
  · rw [float64Key_eq (by norm_num), if_neg (by norm_num),
      float64Key_eq (by norm_num), if_pos (by norm_num)]
    norm_num
  · intro b hb hnan hs
    have hlt : b < 2 ^ 63 := lt_two_pow_63_of_sign_zero hs
    have hexp : b >>> 52 % 2 ^ 11 = 2 ^ 11 - 1 := hnan.1
    have hdiv : b >>> 52 = b / 2 ^ 52 := Nat.shiftRight_eq_div_pow b 52
    have hsmall : b / 2 ^ 52 < 2 ^ 11 := by
      apply Nat.div_lt_of_lt_mul
      calc b < 2 ^ 63 := hlt
        _ = 2 ^ 52 * 2 ^ 11 := by norm_num
    have hdiveq : b / 2 ^ 52 = 2 ^ 11 - 1 := by
      rw [hdiv, Nat.mod_eq_of_lt hsmall] at hexp
      exact hexp
    have hge : (2 ^ 11 - 1) * 2 ^ 52 ≤ b := by
      rw [← hdiveq]
      exact Nat.div_mul_le_self b (2 ^ 52)
    have hmf : f64MaxFinite < b := by
      have : f64MaxFinite < (2 ^ 11 - 1) * 2 ^ 52 := by norm_num [f64MaxFinite]
      omega
    rw [float64Key_eq hb, if_pos hlt,
      float64Key_eq (show f64MaxFinite < 2 ^ 64 by norm_num [f64MaxFinite]),
      if_pos (by norm_num [f64MaxFinite])]
    omega

/-! ## The consistency checker

Go source (`radixsort.go`):
```
func check(data Interface, l int) {
    for i := 1; i < l; i++ {
        if data.Less(i, i-1) {
            if data.Key(i) > data.Key(i-1) {
                panic("sort: Less and Key do not order items the same way")
            }
            panic("sort: failed to sort data; ...")
        }
    }
}
```
A panic is modelled as `some message`; normal return as `none`.  The loop
with early exit is the first `some` over the index list `[1, ..., l-1]`. -/

/-- The Less/Key-disagreement panic message. -/
def lessKeyMsg : String := "sort: Less and Key do not order items the same way"

/-- The nondeterminism/race panic message. -/
def raceMsg : String :=
  "sort: failed to sort data; could be nondeterministic Less or Key or race condition"

/-- The body run by `check` at index `i`: panic choice for an out-of-order
adjacent pair, `none` when the pair is in order. -/
def checkAt (key : α → Nat) (less : α → α → Bool) (f : Nat → α) (i : Nat) :
    Option String :=
  if less (f i) (f (i - 1)) then
    if key (f i) > key (f (i - 1)) then some lessKeyMsg else some raceMsg
  else none

/-- `check data l` walks the adjacent pairs in index order and panics at the
first out-of-order pair. -/
def check (key : α → Nat) (less : α → α → Bool) (f : Nat → α) (l : Nat) :
    Option String :=
  (List.range' 1 (l - 1)).findSome? (checkAt key less f)

/-- Membership in a step-1 `range'` is an interval condition. -/
theorem mem_range'_one {m s n : Nat} : m ∈ List.range' s n ↔ s ≤ m ∧ m < s + n := by
  rw [List.mem_range']
  constructor
  · rintro ⟨i, hi, rfl⟩
    omega
  · rintro ⟨h1, h2⟩
    exact ⟨m - s, by omega, by omega⟩

/-- **C7, counterexample**: the claim ties the race/nondeterminism
diagnostic exactly to out-of-order pairs with *equal* keys, but the code
also emits it when the keys are strictly decreasing: on the two-element
collection `[10, 5]` with `Key = id` and `Less = (· < ·)` the first pair is
out of order, the keys differ, and `check` still panics with the race
diagnostic (not the Less/Key-disagreement one). -/
theorem check_race_counterexample :
    check (fun n : Nat => n) (fun x y => decide (x < y))
        (fun i => if i = 0 then 10 else 5) 2 = some raceMsg ∧
      (5 : Nat) ≠ 10 := by
  constructor
  · rfl
  · decide

/-- **C7 (amended)**: `check` returns normally iff every adjacent pair
satisfies `¬ Less(i, i-1)`; at the first out-of-order pair it panics, with
the Less/Key-disagreement diagnostic exactly when `Key(i) > Key(i-1)` and
with the race/nondeterminism diagnostic exactly when `Key(i) ≤ Key(i-1)`
(equal *or strictly decreasing* keys). -/
theorem check_characterization (key : α → Nat) (less : α → α → Bool)
    (f : Nat → α) (l : Nat) :
    (check key less f l = none ↔
      ∀ i, 1 ≤ i → i < l → less (f i) (f (i - 1)) = false) ∧
    (∀ i, 1 ≤ i → i < l →
      (∀ j, 1 ≤ j → j < i → less (f j) (f (j - 1)) = false) →
      less (f i) (f (i - 1)) = true →
      check key less f l =
        some (if key (f i) > key (f (i - 1)) then lessKeyMsg else raceMsg)) := by
  constructor
  · rw [check, List.findSome?_eq_none_iff]
    constructor
    · intro h i h1 h2
      have hmem := h i (mem_range'_one.mpr ⟨h1, by omega⟩)
      rw [checkAt] at hmem
      by_cases hl : less (f i) (f (i - 1)) = true
      · rw [if_pos hl] at hmem
        split at hmem
        · exact absurd hmem (by simp)
        · exact absurd hmem (by simp)
      · simp only [Bool.not_eq_true] at hl
        exact hl
    · intro h i hi
      obtain ⟨h1, h2⟩ := mem_range'_one.mp hi
      rw [checkAt, h i h1 (by omega)]
      simp
  · intro i h1 h2 hprev hcur
    rw [check]
    have hsplit : List.range' 1 (l - 1) =
        List.range' 1 (i - 1) ++ List.range' i (l - i) := by
      have happ := List.range'_append 1 (i - 1) (l - i) 1
      rw [show 1 + 1 * (i - 1) = i by omega] at happ
      rw [show l - 1 = l - i + (i - 1) by omega]
      exact happ.symm
    rw [hsplit, List.findSome?_append]
    have hnone : (List.range' 1 (i - 1)).findSome? (checkAt key less f) = none := by
      rw [List.findSome?_eq_none_iff]
      intro j hj
      obtain ⟨hj1, hj2⟩ := mem_range'_one.mp hj
      rw [checkAt, hprev j hj1 (by omega)]
      simp
    rw [hnone, Option.none_or]
    obtain ⟨m, hm⟩ : ∃ m, l - i = m + 1 := ⟨l - i - 1, by omega⟩
    have hcons : List.range' i (l - i) = i :: List.range' (i + 1) m := by
      rw [hm, List.range'_succ]
    rw [hcons, List.findSome?_cons, checkAt, hcur]
    by_cases hk : key (f i) > key (f (i - 1))
    · simp [hk]
    · simp [hk]

/-- Witness for `check_characterization` at a concrete input: the
collection `[5, 10, 7]` (keys = values, `Less = (· < ·)`) has its first
out-of-order pair at `i = 2` with strictly decreasing keys, so `check`
panics with the race diagnostic. -/
theorem check_characterization_witness :
    check (fun n : Nat => n) (fun x y => decide (x < y))
        (fun i => if i = 0 then 5 else if i = 1 then 10 else 7) 3 = some raceMsg := by
  have h := (check_characterization (fun n : Nat => n) (fun x y => decide (x < y))
    (fun i => if i = 0 then 5 else if i = 1 then 10 else 7) 3).2 2
    (by decide) (by decide) (by intro j hj1 hj2; interval_cases j; decide)
    (by decide)
  simpa using h

/-! ## The index builders' `SetKeys` (`index.go`)

Go strings and byte slices are modelled as lists of byte values
(`List Nat`).  `stringKey`/`bytesKey` pack the first (up to) 8 bytes into
the key, most significant first:
```
k := Key(0); shift := uint(56)
for j := 0; j < 8 && j < len(s); j++ { k ^= Key(s[j]) << shift; shift -= 8 }
```
so at iteration `j` the shift is `56 - 8*j`. -/

/-- Prefix key of a string (list of bytes). -/
def stringKey (s : List Nat) : Nat :=
  (List.range (min 8 s.length)).foldl
    (fun k j => k ^^^ (s.getD j 0) <<< (56 - 8 * j)) 0

/-- Prefix key of a byte slice; the Go code duplicates `stringKey`. -/
def bytesKey (b : List Nat) : Nat :=
  (List.range (min 8 b.length)).foldl
    (fun k j => k ^^^ (b.getD j 0) <<< (56 - 8 * j)) 0

/-- The `SetKeys` loop shared (by textual duplication, in Go) by the string
and bytes index builders, at absolute element position `p` (`p = i + a` in
the Go code, starting from `p = a`):
```
l := sib.Len()
for i := range keys {
    if i+a == l { break }
    keys[i] = stringKey(sib.StringAt(i + a))
}
```
`keyOf` is `stringKey` resp. `bytesKey`; an out-of-range `StringAt` /
`BytesAt` access (a Go panic) is modelled as `none`. -/
def setKeysGo (keyOf : List Nat → Nat) (xs : List (List Nat)) (l : Nat) :
    List Nat → Nat → Option (List Nat)
  | [], _ => some []
  | k :: rest, p =>
    if p = l then some (k :: rest)
    else
      match xs.get? p with
      | none => none
      | some s => (setKeysGo keyOf xs l rest (p + 1)).map (fun r => keyOf s :: r)

/-- `SetKeys` of the string index builder. -/
def setKeysStr (strs : List (List Nat)) (keys : List Nat) (a : Nat) :
    Option (List Nat) :=
  setKeysGo stringKey strs strs.length keys a

/-- `SetKeys` of the bytes index builder. -/
def setKeysBytes (bs : List (List Nat)) (keys : List Nat) (a : Nat) :
    Option (List Nat) :=
  setKeysGo bytesKey bs bs.length keys a

/-- Filling specification of the `SetKeys` loop, for in-range offsets. -/
theorem setKeysGo_spec (keyOf : List Nat → Nat) (xs : List (List Nat)) :
    ∀ (keys : List Nat) (p : Nat), p ≤ xs.length →
      ∃ r, setKeysGo keyOf xs xs.length keys p = some r ∧
        r.length = keys.length ∧
        ∀ i, i < keys.length →
          r.getD i 0 = if p + i < xs.length then keyOf (xs.getD (p + i) [])
            else keys.getD i 0 := by
  intro keys
  induction keys with
  | nil =>
    intro p _
    exact ⟨[], rfl, rfl, by intro i hi; simp at hi⟩
  | cons k rest ih =>
    intro p hp
    rw [setKeysGo]
    by_cases hpl : p = xs.length
    · rw [if_pos hpl]
      refine ⟨k :: rest, rfl, rfl, ?_⟩
      intro i _
      rw [if_neg (by omega)]
    · rw [if_neg hpl]
      have hplt : p < xs.length := by omega
      have hget : xs.get? p = some (xs.getD p []) := by
        rw [List.getD_eq_getElem?_getD, List.get?_eq_getElem?,
          List.getElem?_eq_getElem hplt]
        rfl
      rw [hget]
      obtain ⟨r', hr', hlen, hspec⟩ := ih (p + 1) (by omega)
      refine ⟨keyOf (xs.getD p []) :: r', by rw [hr']; rfl, by simp [hlen], ?_⟩
      intro i hi
      match i with
      | 0 => simp [hplt]
      | j + 1 =>
        have hj := hspec j (by simpa using hi)
        simp only [List.getD_cons_succ]
        rw [hj]
        have harith : p + 1 + j = p + (j + 1) := by omega
        rw [harith]

/-- **C9, counterexample**: the claim says that for *every* offset with
`offset ≥ length` no key entry is filled and no element is accessed, but
the Go loop's exit test is the equality `i+a == l`, which is never hit when
`offset > length`; on a length-1 collection with one key slot and offset 2
the loop immediately accesses element 2, out of range (a Go panic),
instead of leaving the keys untouched. -/
theorem setKeys_offset_counterexample :
    setKeysStr [[1]] [0] 2 = none ∧ setKeysBytes [[1]] [0] 2 = none := by
  constructor
  · rfl
  · rfl

/-- **C9 (amended)**: for every keys array and every offset `a` with
`0 ≤ a ≤ length`, the string and bytes `SetKeys` fill exactly
`keys[0 .. min(len(keys), length - a))` with the prefix key of the element
at position `a + i`, leave the remaining entries unmodified, and access no
element out of range; in particular at `a = length` nothing is filled.
(For `a > length` the loop instead runs off the end of the collection,
see the counterexample.) -/
theorem setKeys_fill (strs bs : List (List Nat)) (keys kb : List Nat)
    (a c : Nat) (ha : a ≤ strs.length) (hc : c ≤ bs.length) :
    (∃ r, setKeysStr strs keys a = some r ∧ r.length = keys.length ∧
      ∀ i, i < keys.length →
        r.getD i 0 = if a + i < strs.length then stringKey (strs.getD (a + i) [])
          else keys.getD i 0) ∧
    (∃ r, setKeysBytes bs kb c = some r ∧ r.length = kb.length ∧
      ∀ i, i < kb.length →
        r.getD i 0 = if c + i < bs.length then bytesKey (bs.getD (c + i) [])
          else kb.getD i 0) :=
  ⟨setKeysGo_spec stringKey strs keys a ha, setKeysGo_spec bytesKey bs kb c hc⟩

/-- Witness for `setKeys_fill` at concrete inputs. -/
theorem setKeys_fill_witness :
    (1 ≤ ([[1, 2], [3]] : List (List Nat)).length ∧
      2 ≤ ([[4], [5], [6]] : List (List Nat)).length) ∧
    ((∃ r, setKeysStr [[1, 2], [3]] [9, 9, 9] 1 = some r ∧ r.length = 3 ∧
      ∀ i, i < ([9, 9, 9] : List Nat).length →
        r.getD i 0 = if 1 + i < ([[1, 2], [3]] : List (List Nat)).length
          then stringKey (([[1, 2], [3]] : List (List Nat)).getD (1 + i) [])
          else ([9, 9, 9] : List Nat).getD i 0) ∧
    (∃ r, setKeysBytes [[4], [5], [6]] [7] 2 = some r ∧ r.length = 1 ∧
      ∀ i, i < ([7] : List Nat).length →
        r.getD i 0 = if 2 + i < ([[4], [5], [6]] : List (List Nat)).length
          then bytesKey (([[4], [5], [6]] : List (List Nat)).getD (2 + i) [])
          else ([7] : List Nat).getD i 0)) := by
  refine ⟨⟨by decide, by decide⟩, ?_⟩
  have h := setKeys_fill [[1, 2], [3]] [[4], [5], [6]] [9, 9, 9] [7] 1 2
    (by decide) (by decide)
  obtain ⟨⟨r1, h1, hl1, hs1⟩, ⟨r2, h2, hl2, hs2⟩⟩ := h
  exact ⟨⟨r1, h1, by simpa using hl1, hs1⟩, ⟨r2, h2, by simpa using hl2, hs2⟩⟩

/-! ## The radix sorting engine (`radixsort.go`)

A collection (`radix.Interface`) is modelled as a function state
`f : Nat → α` over abstract elements, together with a pure key function
`key : α → Nat` (Go `Key(i)` is `key (f i)`, a `uint64`) and a pure
secondary comparison `less : α → α → Bool` (Go `Less(i, j)` is
`less (f i) (f j)`); `Swap(i, j)` is the pointwise exchange `swapF`. -/

/-- `const radix = 8`. -/
def radix : Nat := 8

/-- `const mask = 1<<radix - 1`. -/
def mask : Nat := 1 <<< radix - 1

/-- `const qSortCutoff = 1 << 7`. -/
def qSortCutoff : Nat := 1 <<< 7

/-- The current radix digit of a key: `(k >> shift) & mask`. -/
def digit (k shift : Nat) : Nat := k >>> shift &&& mask

/-- `Swap(i, j)` on a function state: exchange the values at `i` and `j`. -/
def swapF (f : Nat → α) (i j : Nat) : Nat → α :=
  fun x => if x = i then f j else if x = j then f i else f x

/-- The combined engine order: primary by key, secondary by `less` on equal
keys.  This is literally the `Less` of the `index` wrapper in `index.go`
(`ki < kj || (ki == kj && idx.Interface.Less(i, j))`), and it is the order
the capability contract makes the engine sort by. -/
def cLess (key : α → Nat) (less : α → α → Bool) (x y : α) : Bool :=
  decide (key x < key y) || (decide (key x = key y) && less x y)

/-- Modelled from the spec: the opaque small-range fallback sort `qSort`
(its source file is not part of the examined core).  Per §2/§4.4 of the
spec it is a comparison sort that sorts any half-open index range `[a, b)`
of a contract collection into the combined order, touching nothing outside
the range; we model it as an insertion sort of the range's elements by the
combined order. -/
def qSort (key : α → Nat) (less : α → α → Bool) (f : Nat → α) (a b : Nat) :
    Nat → α :=
  let seg := List.insertionSort (fun x y => cLess key less y x = false)
    ((List.range' a (b - a)).map f)
  fun i => if a ≤ i ∧ i < b then seg.getD (i - a) (f i) else f i

/-- The highest-set-bit loop of `radixSort`'s self-correction
(`for diff != 0 { log2diff++; diff >>= 1 }`), with explicit fuel; the loop
runs on a `uint64`, so 64 iterations are exact for every `d < 2^64`. -/
def bitLenAux : Nat → Nat → Nat
  | 0, _ => 0
  | fuel + 1, d => if d = 0 then 0 else bitLenAux fuel (d >>> 1) + 1

/-- Number of significant bits of a (64-bit) value. -/
def bitLen (d : Nat) : Nat := bitLenAux 64 d

/-- The radix-stepped highest-bit loop of `guessInitialShift`
(`for diff != 0 { log2diff += radix; diff >>= radix }`); 8 iterations are
exact for every `d < 2^64`. -/
def bitLen8Aux : Nat → Nat → Nat
  | 0, _ => 0
  | fuel + 1, d => if d = 0 then 0 else bitLen8Aux fuel (d >>> radix) + radix

/-- Number of significant bits of a (64-bit) value, rounded up to a
multiple of the radix width. -/
def bitLen8 (d : Nat) : Nat := bitLen8Aux 8 d

/-- The sampling stride of `guessInitialShift`:
`step := l >> 5; if l > 1<<16 { step = l >> 8 }; if step == 0 { step = 1 }`. -/
def guessStep (l : Nat) : Nat :=
  let step := if l > 1 <<< 16 then l >>> 8 else l >>> 5
  if step = 0 then 1 else step

/-- Number of iterations of the strided sampling loop
`for i := 0; i < l; i += step`. -/
def sampleCount (l step : Nat) : Nat := (l + step - 1) / step

/-- The sampled indices of `guessInitialShift`. -/
def sampleIndices (l : Nat) : List Nat :=
  List.range' 0 (sampleCount l (guessStep l)) (guessStep l)

/-- The min/max update of the strided sampling loop. -/
def gmStep (key : α → Nat) (f : Nat → α) (st : Nat × Nat) (i : Nat) : Nat × Nat :=
  let k := key (f i)
  (if k < st.1 then k else st.1, if k > st.2 then k else st.2)

/-- `guessInitialShift(data, l)`: sample strided keys (seeding min and max
with the last element's key), XOR the sampled min and max, and derive the
starting shift from the radix-stepped highest-bit loop; the final
`if shiftGuess < 0 { return 0 }` clamp coincides with truncated `Nat`
subtraction. -/
def guessInitialShift (key : α → Nat) (f : Nat → α) (l : Nat) : Nat :=
  let init := key (f (l - 1))
  let mm := (sampleIndices l).foldl (gmStep key f) (init, init)
  bitLen8 (mm.1 ^^^ mm.2) - radix

/-- The loop body of the counting pass. -/
def cpStep (key : α → Nat) (shift : Nat) (f : Nat → α)
    (st : (Nat → Nat) × Nat × Nat) (i : Nat) : (Nat → Nat) × Nat × Nat :=
  let k := key (f i)
  (fun c => if c = digit k shift then st.1 c + 1 else st.1 c,
   if k < st.2.1 then k else st.2.1,
   if k > st.2.2 then k else st.2.2)

/-- The single counting pass of `radixSort` over `[a, b)`: per-digit bucket
counts plus the exact running min/max key (min and max are seeded from the
key at `a`, which the loop re-processes first, as in the Go code). -/
def countPass (key : α → Nat) (shift : Nat) (f : Nat → α) (a b : Nat) :
    (Nat → Nat) × Nat × Nat :=
  (List.range' a (b - a)).foldl (cpStep key shift f)
    (fun _ => 0, key (f a), key (f a))

/-- Bucket start positions: the prefix sums of the counts over `[a, b)`
(the `pos := a; bucketStarts[i] = pos; pos += c` loop). -/
def bucketStart (cnt : Nat → Nat) (a c : Nat) : Nat :=
  a + ∑ x ∈ Finset.range c, cnt x

/-- Bucket end positions: `bucketEnds[i] = pos` after adding the count. -/
def bucketEnd (cnt : Nat → Nat) (a c : Nat) : Nat := bucketStart cnt a (c + 1)

/-- Increment one entry of the `bucketStarts` array. -/
def bump (s : Nat → Nat) (c : Nat) : Nat → Nat :=
  fun x => if x = c then s x + 1 else s x

/-- The in-place bucket permutation sweep of `radixSort`
(`for curBucket, bucketEnd := range bucketEnds { ... }`).

During one bucket's inner loop the Go index `i` always equals
`bucketStarts[curBucket]` (both are incremented together in the
`destBucket == curBucket` branch and neither changes in the swap branch),
so the embedding uses `starts cur` directly for `i`.

The fuel only bounds the loop (the Go loop has none); `radixSort` passes
`b - a + 257`, which is proved sufficient.  Along with the final state the
sweep returns the list of index pairs passed to `Swap`, so that theorems
can speak about which positions the engine touches. -/
def sweepGo (key : α → Nat) (shift : Nat) (ends : Nat → Nat) :
    Nat → List Nat → (Nat → α) → (Nat → Nat) →
      Option ((Nat → α) × List (Nat × Nat))
  | 0, _, _, _ => none
  | fuel + 1, bs, f, starts =>
    match bs with
    | [] => some (f, [])
    | cur :: rest =>
      if starts cur < ends cur then
        let i := starts cur
        let d := digit (key (f i)) shift
        if d = cur then
          sweepGo key shift ends fuel (cur :: rest) f (bump starts cur)
        else
          (sweepGo key shift ends fuel (cur :: rest) (swapF f i (starts d))
            (bump starts d)).map (fun r => (r.1, (i, starts d) :: r.2))
      else sweepGo key shift ends fuel rest f starts

/-- The per-bucket range loop shared by the two tails of `radixSort`
(`pos = a; for _, end := range bucketEnds { if end > pos+1 { ... }; pos = end }`),
parameterized by the action `g` run on each bucket range of size `≥ 2`. -/
def childFold (g : Nat → Nat → (Nat → α) → Option (Nat → α)) :
    List Nat → Nat → (Nat → α) → Option (Nat → α)
  | [], _, f => some f
  | e :: rest, pos, f =>
    if e > pos + 1 then
      match g pos e f with
      | none => none
      | some f2 => childFold g rest e f2
    else childFold g rest e f

/-- `radixSort(data, shift, a, b, scratch)`.

The Go scratch buffer is zeroed at the start of every call, so the
embedding computes the counts locally; `bucketEnds` is the prefix-sum
array fixed before the sweep.  The fuel bounds only the recursion depth
(one unit per recursive `radixSort` call: a self-correction or a descent
into child buckets); the entry point's fuel is proved sufficient. -/
def radixSort (key : α → Nat) (less : α → α → Bool) :
    Nat → Nat → Nat → Nat → (Nat → α) → Option (Nat → α)
  | fuel, shift, a, b, f =>
    if b - a < qSortCutoff then some (qSort key less f a b)
    else
      let cmm := countPass key shift f a b
      let diff := cmm.2.1 ^^^ cmm.2.2
      if diff = 0 then some (qSort key less f a b)
      else if diff >>> shift = 0 ∨ diff >>> (shift + radix) ≠ 0 then
        match fuel with
        | 0 => none
        | fuel + 1 => radixSort key less fuel (bitLen diff - radix) a b f
      else
        match sweepGo key shift (bucketEnd cmm.1 a) (b - a + 257)
            (List.range 256) f (bucketStart cmm.1 a) with
        | none => none
        | some (f2, _) =>
          if shift = 0 then
            childFold (fun a2 b2 f3 => some (qSort key less f3 a2 b2))
              ((List.range 256).map (bucketEnd cmm.1 a)) a f2
          else
            match fuel with
            | 0 => none
            | fuel + 1 =>
              childFold
                (fun a2 b2 f3 =>
                  radixSort key less fuel
                    (if shift < radix then 0 else shift - radix) a2 b2 f3)
                ((List.range 256).map (bucketEnd cmm.1 a)) a f2

/-- Recursion-depth fuel used by the entry point; any value `≥ 8` is
sufficient for 64-bit keys (proved below), 64 is comfortable. -/
def sortFuel : Nat := 64

/-- `Sort(data)`: fallback sort below the cutoff, otherwise guess a shift
and run the radix engine over `[0, l)`. -/
def Sort' (key : α → Nat) (less : α → α → Bool) (f : Nat → α) (l : Nat) :
    Option (Nat → α) :=
  if l < qSortCutoff then some (qSort key less f 0 l)
  else radixSort key less sortFuel (guessInitialShift key f l) 0 l f

/-! ## Basic properties of `swapF` and `qSort` -/

/-- Index transposition (proof-side companion of `swapF`). -/
def swapIdx (i j x : Nat) : Nat := if x = i then j else if x = j then i else x

theorem swapF_eq_comp (f : Nat → α) (i j : Nat) :
    swapF f i j = fun x => f (swapIdx i j x) := by
  funext x
  unfold swapF swapIdx
  by_cases h1 : x = i
  · simp [h1]
  · by_cases h2 : x = j
    · by_cases h3 : j = i
      · simp [h1, h2, h3]
      · simp [h1, h2, h3]
    · simp [h1, h2]

theorem swapIdx_invol (i j x : Nat) : swapIdx i j (swapIdx i j x) = x := by
  unfold swapIdx
  by_cases h1 : x = i
  · by_cases h2 : j = i <;> simp [h1, h2]
  · by_cases h2 : x = j
    · simp [h1, h2]
    · simp [h1, h2]

theorem swapIdx_mem_range' {i j x a n : Nat} (hi : i ∈ List.range' a n)
    (hj : j ∈ List.range' a n) (hx : x ∈ List.range' a n) :
    swapIdx i j x ∈ List.range' a n := by
  unfold swapIdx
  split
  · exact hj
  · split
    · exact hi
    · exact hx

/-- Transposing two positions of the index interval permutes it. -/
theorem map_swapIdx_perm {i j a n : Nat} (hi : i ∈ List.range' a n)
    (hj : j ∈ List.range' a n) :
    List.Perm ((List.range' a n).map (swapIdx i j)) (List.range' a n) := by
  have hLI : Function.LeftInverse (swapIdx i j) (swapIdx i j) := swapIdx_invol i j
  have hinj : Function.Injective (swapIdx i j) := hLI.injective
  apply List.perm_of_nodup_nodup_toFinset_eq
  · exact (List.nodup_range' a n).map hinj
  · exact List.nodup_range' a n
  · ext x
    simp only [List.mem_toFinset, List.mem_map]
    constructor
    · rintro ⟨y, hy, rfl⟩
      exact swapIdx_mem_range' hi hj hy
    · intro hx
      exact ⟨swapIdx i j x, swapIdx_mem_range' hi hj hx, swapIdx_invol i j x⟩

/-- A `Swap` inside `[a, a+n)` permutes the collection's elements there. -/
theorem swapF_perm (f : Nat → α) {i j a n : Nat} (hi : i ∈ List.range' a n)
    (hj : j ∈ List.range' a n) :
    List.Perm ((List.range' a n).map (swapF f i j)) ((List.range' a n).map f) := by
  rw [swapF_eq_comp]
  have h1 : (List.range' a n).map (fun x => f (swapIdx i j x)) =
      ((List.range' a n).map (swapIdx i j)).map f := by
    rw [List.map_map]
    rfl
  rw [h1]
  exact (map_swapIdx_perm hi hj).map f

theorem swapF_outside (f : Nat → α) {i j x : Nat} (h1 : x ≠ i) (h2 : x ≠ j) :
    swapF f i j x = f x := by
  simp [swapF, h1, h2]

theorem swapF_fst (f : Nat → α) (i j : Nat) : swapF f i j i = f j := by
  simp [swapF]

theorem swapF_snd (f : Nat → α) {i j : Nat} (h : i ≠ j) : swapF f i j j = f i := by
  simp [swapF, Ne.symm h]

/-! Properties of the combined order and of the modelled `qSort`.

The capability-contract invariant makes `less` a strict weak order: we use
it as the two hypotheses `Hasym` (asymmetry) and `Hneg` (a co-transitivity
form of negative transitivity). -/

theorem cLess_eq_true_of_key_lt (key : α → Nat) (less : α → α → Bool)
    {x y : α} (h : key x < key y) : cLess key less x y = true := by
  simp [cLess, h]

theorem cLess_eq_false_of_key_gt (key : α → Nat) (less : α → α → Bool)
    {x y : α} (h : key y < key x) : cLess key less x y = false := by
  have h1 : ¬key x < key y := by omega
  have h2 : key x ≠ key y := by omega
  simp [cLess, h1, h2]

theorem cLess_eq_of_key_eq (key : α → Nat) (less : α → α → Bool)
    {x y : α} (h : key x = key y) : cLess key less x y = less x y := by
  have h1 : ¬key x < key y := by omega
  simp [cLess, h1, h]

/-- An element inspection of the combined order. -/
theorem cLess_cases (key : α → Nat) (less : α → α → Bool) (x y : α)
    (h : cLess key less x y = true) :
    key x < key y ∨ (key x = key y ∧ less x y = true) := by
  unfold cLess at h
  rcases Bool.or_eq_true_iff.mp h with h1 | h1
  · exact Or.inl (of_decide_eq_true h1)
  · obtain ⟨hk, hl⟩ := Bool.and_eq_true_iff.mp h1
    exact Or.inr ⟨of_decide_eq_true hk, hl⟩

/-- Asymmetry of the combined order, given asymmetry of `less`. -/
theorem cLess_asymm (key : α → Nat) (less : α → α → Bool)
    (Hasym : ∀ x y, less x y = true → less y x = false) (x y : α)
    (h : cLess key less x y = true) : cLess key less y x = false := by
  rcases cLess_cases key less x y h with h1 | ⟨hk, hl⟩
  · exact cLess_eq_false_of_key_gt key less h1
  · rw [cLess_eq_of_key_eq key less hk.symm]
    exact Hasym _ _ hl

/-- Co-transitivity of the combined order, given that of `less`. -/
theorem cLess_cotrans (key : α → Nat) (less : α → α → Bool)
    (Hneg : ∀ x y z, less x z = true → less x y = true ∨ less y z = true)
    (x y z : α) (h : cLess key less x z = true) :
    cLess key less x y = true ∨ cLess key less y z = true := by
  rcases cLess_cases key less x z h with h1 | ⟨hk, hl⟩
  · by_cases hxy : key x < key y
    · exact Or.inl (cLess_eq_true_of_key_lt key less hxy)
    · exact Or.inr (cLess_eq_true_of_key_lt key less (by omega))
  · by_cases hxy : key x < key y
    · exact Or.inl (cLess_eq_true_of_key_lt key less hxy)
    · by_cases hyx : key y < key x
      · exact Or.inr (cLess_eq_true_of_key_lt key less (by omega))
      · have hkxy : key x = key y := by omega
        rcases Hneg x y z hl with h2 | h2
        · left
          rw [cLess_eq_of_key_eq key less hkxy]
          exact h2
        · right
          rw [cLess_eq_of_key_eq key less (by omega)]
          exact h2

/-- The relation `qSort` sorts by. -/
def sortRel (key : α → Nat) (less : α → α → Bool) (x y : α) : Prop :=
  cLess key less y x = false

instance (key : α → Nat) (less : α → α → Bool) :
    DecidableRel (sortRel key less) := fun _ _ => by unfold sortRel; infer_instance

theorem sortRel_isTotal (key : α → Nat) (less : α → α → Bool)
    (Hasym : ∀ x y, less x y = true → less y x = false) :
    IsTotal α (sortRel key less) := by
  constructor
  intro x y
  unfold sortRel
  by_cases h : cLess key less y x = true
  · right
    exact cLess_asymm key less Hasym y x h
  · left
    exact Bool.eq_false_iff.mpr h

theorem sortRel_isTrans (key : α → Nat) (less : α → α → Bool)
    (Hneg : ∀ x y z, less x z = true → less x y = true ∨ less y z = true) :
    IsTrans α (sortRel key less) := by
  constructor
  intro x y z h1 h2
  unfold sortRel at h1 h2 ⊢
  by_cases h : cLess key less z x = true
  · rcases cLess_cotrans key less Hneg z y x h with h3 | h3
    · rw [h2] at h3
      exact absurd h3 (by simp)
    · rw [h1] at h3
      exact absurd h3 (by simp)
  · exact Bool.eq_false_iff.mpr h

/-- Mapping an in-bounds `getD` view over the index interval recovers the
underlying list. -/
theorem map_range'_getD (g : Nat → α) :
    ∀ (n : Nat) (seg : List α) (a : Nat), seg.length = n →
      (List.range' a n).map (fun i => seg.getD (i - a) (g i)) = seg := by
  intro n
  induction n with
  | zero =>
    intro seg a h
    rw [List.eq_nil_of_length_eq_zero h]
    rfl
  | succ m ih =>
    intro seg a h
    match seg with
    | x :: rest =>
      rw [List.range'_succ, List.map_cons]
      congr 1
      · simp
      · have hrw : (List.range' (a + 1) m).map (fun i => (x :: rest).getD (i - a) (g i)) =
            (List.range' (a + 1) m).map (fun i => rest.getD (i - (a + 1)) (g i)) := by
          apply List.map_congr_left
          intro i hi
          have hmem := mem_range'_one.mp hi
          have hsub : i - a = (i - (a + 1)) + 1 := by omega
          rw [hsub, List.getD_cons_succ]
        rw [hrw, ih rest (a + 1) (by simpa using h)]

/-- `qSort` leaves everything outside `[a, b)` unchanged. -/
theorem qSort_outside (key : α → Nat) (less : α → α → Bool) (f : Nat → α)
    {a b x : Nat} (h : x < a ∨ b ≤ x) :
    qSort key less f a b x = f x := by
  unfold qSort
  rw [if_neg (by omega)]

/-- `qSort` permutes the elements of `[a, b)`. -/
theorem qSort_perm (key : α → Nat) (less : α → α → Bool) (f : Nat → α)
    (a b : Nat) :
    List.Perm ((List.range' a (b - a)).map (qSort key less f a b))
      ((List.range' a (b - a)).map f) := by
  unfold qSort
  have hlen : (List.insertionSort (fun x y => cLess key less y x = false)
      ((List.range' a (b - a)).map f)).length = b - a := by
    rw [List.length_insertionSort, List.length_map, List.length_range']
  have hmap : (List.range' a (b - a)).map
      (fun i => if a ≤ i ∧ i < b then
        (List.insertionSort (fun x y => cLess key less y x = false)
          ((List.range' a (b - a)).map f)).getD (i - a) (f i) else f i) =
      (List.range' a (b - a)).map
      (fun i => (List.insertionSort (fun x y => cLess key less y x = false)
          ((List.range' a (b - a)).map f)).getD (i - a) (f i)) := by
    apply List.map_congr_left
    intro i hi
    have hmem := mem_range'_one.mp hi
    rw [if_pos (by omega)]
  rw [hmap, map_range'_getD f (b - a) _ a hlen]
  exact List.perm_insertionSort _ _

/-- `qSort` sorts `[a, b)` by the combined order (given the strict-weak-
order hypotheses on `less`). -/
theorem qSort_sorted (key : α → Nat) (less : α → α → Bool)
    (Hasym : ∀ x y, less x y = true → less y x = false)
    (Hneg : ∀ x y z, less x z = true → less x y = true ∨ less y z = true)
    (f : Nat → α) (a b : Nat) :
    ∀ i, a ≤ i → i + 1 < b →
      cLess key less (qSort key less f a b (i + 1)) (qSort key less f a b i) = false := by
  intro i h1 h2
  haveI := sortRel_isTotal key less Hasym
  haveI := sortRel_isTrans key less Hneg
  have hsorted : List.Sorted (sortRel key less)
      (List.insertionSort (fun x y => cLess key less y x = false)
        ((List.range' a (b - a)).map f)) :=
    List.sorted_insertionSort (sortRel key less) _
  unfold qSort
  rw [if_pos (by omega), if_pos (by omega)]
  set seg := List.insertionSort (fun x y => cLess key less y x = false)
    ((List.range' a (b - a)).map f) with hseg
  have hlen : seg.length = b - a := by
    rw [hseg, List.length_insertionSort, List.length_map, List.length_range']
  have hia : i - a < seg.length := by omega
  have hia1 : i + 1 - a < seg.length := by omega
  have hgd : seg.getD (i - a) (f i) = seg.get ⟨i - a, hia⟩ := by
    rw [List.getD_eq_getElem?_getD, List.getElem?_eq_getElem hia]
    rfl
  have hgd1 : seg.getD (i + 1 - a) (f (i + 1)) = seg.get ⟨i + 1 - a, hia1⟩ := by
    rw [List.getD_eq_getElem?_getD, List.getElem?_eq_getElem hia1]
    rfl
  rw [hgd, hgd1]
  have hrel := List.pairwise_iff_get.mp hsorted ⟨i - a, hia⟩ ⟨i + 1 - a, hia1⟩
    (by simp; omega)
  exact hrel

/-! ## Digit and counting-pass lemmas -/

theorem digit_lt_256 (k s : Nat) : digit k s < 256 := by
  unfold digit mask
  have h : k >>> s &&& (1 <<< radix - 1) ≤ 1 <<< radix - 1 := Nat.and_le_right
  have hm : 1 <<< radix - 1 = 255 := by decide
  omega

theorem digit_eq_mod (k s : Nat) : digit k s = k >>> s % 256 := by
  unfold digit mask
  have h : (1 : Nat) <<< radix - 1 = 2 ^ 8 - 1 := by decide
  rw [h, Nat.and_pow_two_sub_one_eq_mod]

/-- One digit step of a key: `k >> s` splits into higher digits and the
current digit. -/
theorem shiftRight_eq_digit_decomp (k s : Nat) :
    k >>> s = 256 * (k >>> (s + radix)) + digit k s := by
  rw [digit_eq_mod, Nat.shiftRight_add, Nat.shiftRight_eq_div_pow (k >>> s) radix]
  have h : (2 : Nat) ^ radix = 256 := by decide
  rw [h]
  omega

/-- Keys agreeing above the digit and ordered on the digit are ordered. -/
theorem key_lt_of_digit_lt {k1 k2 s : Nat}
    (hh : k1 >>> (s + radix) = k2 >>> (s + radix))
    (hd : digit k1 s < digit k2 s) : k1 < k2 := by
  have h1 := shiftRight_eq_digit_decomp k1 s
  have h2 := shiftRight_eq_digit_decomp k2 s
  have hs : k1 >>> s < k2 >>> s := by omega
  by_contra hc
  have hle : k2 ≤ k1 := by omega
  have hdd : k2 / 2 ^ s ≤ k1 / 2 ^ s := Nat.div_le_div_right hle
  rw [← Nat.shiftRight_eq_div_pow, ← Nat.shiftRight_eq_div_pow] at hdd
  omega

/-- Shifting right distributes over XOR. -/
theorem shiftRight_xor_distrib (a b t : Nat) :
    (a ^^^ b) >>> t = a >>> t ^^^ b >>> t := by
  apply Nat.eq_of_testBit_eq
  intro i
  simp [Nat.testBit_shiftRight, Nat.testBit_xor]

/-- A key between two keys that agree above bit `t` agrees with them
above bit `t`. -/
theorem shiftRight_eq_of_between {mn mx k t : Nat}
    (hxor : (mn ^^^ mx) >>> t = 0) (h1 : mn ≤ k) (h2 : k ≤ mx) :
    k >>> t = mn >>> t := by
  rw [shiftRight_xor_distrib] at hxor
  have heq : mn >>> t = mx >>> t := by
    have := Nat.xor_eq_zero.mp hxor
    exact this
  have ha : mn / 2 ^ t ≤ k / 2 ^ t := Nat.div_le_div_right h1
  have hb : k / 2 ^ t ≤ mx / 2 ^ t := Nat.div_le_div_right h2
  rw [← Nat.shiftRight_eq_div_pow, ← Nat.shiftRight_eq_div_pow] at ha
  rw [← Nat.shiftRight_eq_div_pow, ← Nat.shiftRight_eq_div_pow] at hb
  omega

/-! Fold lemmas for the counting pass. -/

theorem cpFold_cnt (key : α → Nat) (shift : Nat) (f : Nat → α) :
    ∀ (L : List Nat) (st : (Nat → Nat) × Nat × Nat) (c : Nat),
      (L.foldl (cpStep key shift f) st).1 c =
        st.1 c + L.countP (fun i => decide (digit (key (f i)) shift = c)) := by
  intro L
  induction L with
  | nil => intro st c; simp
  | cons i L ih =>
    intro st c
    rw [List.foldl_cons, ih, List.countP_cons]
    unfold cpStep
    by_cases h : digit (key (f i)) shift = c
    · simp only [h]
      simp
      omega
    · have h2 : ¬c = digit (key (f i)) shift := fun hc => h hc.symm
      simp only [if_neg h2]
      simp [h]

theorem cpFold_minmax_le (key : α → Nat) (shift : Nat) (f : Nat → α) :
    ∀ (L : List Nat) (st : (Nat → Nat) × Nat × Nat),
      (L.foldl (cpStep key shift f) st).2.1 ≤ st.2.1 ∧
      st.2.2 ≤ (L.foldl (cpStep key shift f) st).2.2 := by
  intro L
  induction L with
  | nil => intro st; exact ⟨le_refl _, le_refl _⟩
  | cons i L ih =>
    intro st
    rw [List.foldl_cons]
    have h := ih (cpStep key shift f st i)
    unfold cpStep at h
    constructor
    · apply le_trans h.1
      dsimp only
      split <;> omega
    · apply le_trans _ h.2
      dsimp only
      split <;> omega

theorem cpFold_bounds (key : α → Nat) (shift : Nat) (f : Nat → α) :
    ∀ (L : List Nat) (st : (Nat → Nat) × Nat × Nat) (i : Nat), i ∈ L →
      (L.foldl (cpStep key shift f) st).2.1 ≤ key (f i) ∧
      key (f i) ≤ (L.foldl (cpStep key shift f) st).2.2 := by
  intro L
  induction L with
  | nil => intro st i hi; exact absurd hi (List.not_mem_nil i)
  | cons j L ih =>
    intro st i hi
    rw [List.foldl_cons]
    rcases List.mem_cons.mp hi with rfl | hi2
    · have h := cpFold_minmax_le key shift f L (cpStep key shift f st i)
      unfold cpStep at h
      dsimp only at h
      constructor
      · apply le_trans h.1
        split <;> omega
      · apply le_trans _ h.2
        split <;> omega
    · exact ih _ i hi2

theorem cpFold_attained_min (key : α → Nat) (shift : Nat) (f : Nat → α) :
    ∀ (L : List Nat) (st : (Nat → Nat) × Nat × Nat),
      (L.foldl (cpStep key shift f) st).2.1 = st.2.1 ∨
      ∃ i ∈ L, (L.foldl (cpStep key shift f) st).2.1 = key (f i) := by
  intro L
  induction L with
  | nil => intro st; exact Or.inl rfl
  | cons j L ih =>
    intro st
    rw [List.foldl_cons]
    rcases ih (cpStep key shift f st j) with h | ⟨i, hi, h⟩
    · have hst : (cpStep key shift f st j).2.1 =
          if key (f j) < st.2.1 then key (f j) else st.2.1 := rfl
      rw [hst] at h
      by_cases hj : key (f j) < st.2.1
      · rw [if_pos hj] at h
        exact Or.inr ⟨j, List.mem_cons_self j L, h⟩
      · rw [if_neg hj] at h
        exact Or.inl h
    · exact Or.inr ⟨i, List.mem_cons_of_mem j hi, h⟩

theorem cpFold_attained_max (key : α → Nat) (shift : Nat) (f : Nat → α) :
    ∀ (L : List Nat) (st : (Nat → Nat) × Nat × Nat),
      (L.foldl (cpStep key shift f) st).2.2 = st.2.2 ∨
      ∃ i ∈ L, (L.foldl (cpStep key shift f) st).2.2 = key (f i) := by
  intro L
  induction L with
  | nil => intro st; exact Or.inl rfl
  | cons j L ih =>
    intro st
    rw [List.foldl_cons]
    rcases ih (cpStep key shift f st j) with h | ⟨i, hi, h⟩
    · have hst : (cpStep key shift f st j).2.2 =
          if key (f j) > st.2.2 then key (f j) else st.2.2 := rfl
      rw [hst] at h
      by_cases hj : key (f j) > st.2.2
      · rw [if_pos hj] at h
        exact Or.inr ⟨j, List.mem_cons_self j L, h⟩
      · rw [if_neg hj] at h
        exact Or.inl h
    · exact Or.inr ⟨i, List.mem_cons_of_mem j hi, h⟩

/-- The counts computed by the single pass. -/
theorem countPass_cnt (key : α → Nat) (shift : Nat) (f : Nat → α) (a b c : Nat) :
    (countPass key shift f a b).1 c =
      (List.range' a (b - a)).countP (fun i => decide (digit (key (f i)) shift = c)) := by
  unfold countPass
  rw [cpFold_cnt]
  simp

/-- The pass's min/max bound every key of the range. -/
theorem countPass_bounds (key : α → Nat) (shift : Nat) (f : Nat → α)
    {a b i : Nat} (hi : a ≤ i) (hib : i < b) :
    (countPass key shift f a b).2.1 ≤ key (f i) ∧
      key (f i) ≤ (countPass key shift f a b).2.2 := by
  unfold countPass
  exact cpFold_bounds key shift f _ _ i (mem_range'_one.mpr ⟨hi, by omega⟩)

/-- The pass's min/max are keys of the range (for a nonempty range). -/
theorem countPass_attained (key : α → Nat) (shift : Nat) (f : Nat → α)
    {a b : Nat} (hab : a < b) :
    (∃ i, a ≤ i ∧ i < b ∧ (countPass key shift f a b).2.1 = key (f i)) ∧
    (∃ i, a ≤ i ∧ i < b ∧ (countPass key shift f a b).2.2 = key (f i)) := by
  unfold countPass
  constructor
  · rcases cpFold_attained_min key shift f (List.range' a (b - a))
      (fun _ => 0, key (f a), key (f a)) with h | ⟨i, hi, h⟩
    · exact ⟨a, le_refl a, hab, h⟩
    · obtain ⟨h1, h2⟩ := mem_range'_one.mp hi
      exact ⟨i, h1, by omega, h⟩
  · rcases cpFold_attained_max key shift f (List.range' a (b - a))
      (fun _ => 0, key (f a), key (f a)) with h | ⟨i, hi, h⟩
    · exact ⟨a, le_refl a, hab, h⟩
    · obtain ⟨h1, h2⟩ := mem_range'_one.mp hi
      exact ⟨i, h1, by omega, h⟩

/-- Splitting a `countP` over an index interval at a midpoint. -/
theorem countP_range'_split (P : Nat → Bool) {a m b : Nat} (h1 : a ≤ m)
    (h2 : m ≤ b) :
    (List.range' a (b - a)).countP P =
      (List.range' a (m - a)).countP P + (List.range' m (b - m)).countP P := by
  rw [← List.countP_append]
  congr 1
  have happ := List.range'_append_1 a (m - a) (b - m)
  rw [show a + (m - a) = m by omega, show b - m + (m - a) = b - a by omega] at happ
  exact happ.symm

/-- The first element of a nonempty interval contributes to `countP`. -/
theorem countP_range'_head_pos (P : Nat → Bool) {i e : Nat} (h : i < e)
    (hPi : P i = true) : 1 ≤ (List.range' i (e - i)).countP P := by
  obtain ⟨m, hm⟩ : ∃ m, e - i = m + 1 := ⟨e - i - 1, by omega⟩
  rw [hm, List.range'_succ, List.countP_cons, hPi]
  simp

/-- Positional counting bound used by the sweep: if positions
`[S1, s1)` all satisfy `P` and a further position `i` outside `[S1, s1)`
also satisfies `P`, the interval `[a, b)` has strictly more than
`s1 - S1` positions satisfying `P`. -/
theorem countP_settled_bound (P : Nat → Bool) {a b S1 s1 i : Nat}
    (h1 : a ≤ S1) (h2 : S1 ≤ s1) (h3 : s1 ≤ b) (h4 : a ≤ i) (h5 : i < b)
    (h6 : i < S1 ∨ s1 ≤ i)
    (hall : ∀ x, S1 ≤ x → x < s1 → P x = true) (hPi : P i = true) :
    s1 - S1 < (List.range' a (b - a)).countP P := by
  have hmid : (List.range' S1 (s1 - S1)).countP P = s1 - S1 := by
    have hall2 : ∀ x ∈ List.range' S1 (s1 - S1), P x = true := by
      intro x hx
      obtain ⟨hx1, hx2⟩ := mem_range'_one.mp hx
      exact hall x hx1 (by omega)
    exact (List.countP_eq_length.mpr hall2).trans (List.length_range' _ _ _)
  rcases h6 with h6 | h6
  · rw [countP_range'_split P (show a ≤ i by omega) (show i ≤ b by omega),
      countP_range'_split P (show i ≤ S1 by omega) (show S1 ≤ b by omega),
      countP_range'_split P (show S1 ≤ s1 by omega) (show s1 ≤ b by omega)]
    have hhead := countP_range'_head_pos P (show i < S1 by omega) hPi
    omega
  · rw [countP_range'_split P (show a ≤ S1 by omega) (show S1 ≤ b by omega),
      countP_range'_split P (show S1 ≤ s1 by omega) (show s1 ≤ b by omega),
      countP_range'_split P (show s1 ≤ i by omega) (show i ≤ b by omega)]
    have hhead := countP_range'_head_pos P (show i < b by omega) hPi
    omega

/-- Every position's digit is below 256, so the 256 per-digit counts of an
index list sum to its length. -/
theorem sum_countP_digits (key : α → Nat) (shift : Nat) (f : Nat → α) :
    ∀ (L : List Nat),
      (∑ c ∈ Finset.range 256,
        L.countP (fun i => decide (digit (key (f i)) shift = c))) = L.length := by
  intro L
  induction L with
  | nil => simp
  | cons j L ih =>
    have hstep : ∀ c, (j :: L).countP (fun i => decide (digit (key (f i)) shift = c)) =
        L.countP (fun i => decide (digit (key (f i)) shift = c)) +
          if digit (key (f j)) shift = c then 1 else 0 := by
      intro c
      rw [List.countP_cons]
      by_cases h : digit (key (f j)) shift = c
      · simp [h]
      · simp [h]
    calc (∑ c ∈ Finset.range 256,
            (j :: L).countP (fun i => decide (digit (key (f i)) shift = c)))
        = (∑ c ∈ Finset.range 256,
            (L.countP (fun i => decide (digit (key (f i)) shift = c)) +
              if digit (key (f j)) shift = c then 1 else 0)) :=
          Finset.sum_congr rfl (fun c _ => hstep c)
      _ = (∑ c ∈ Finset.range 256,
            L.countP (fun i => decide (digit (key (f i)) shift = c))) +
          (∑ c ∈ Finset.range 256, if digit (key (f j)) shift = c then 1 else 0) :=
          Finset.sum_add_distrib
      _ = L.length + 1 := by
          rw [ih, Finset.sum_ite_eq (Finset.range 256) (digit (key (f j)) shift)
            (fun _ => 1), if_pos (Finset.mem_range.mpr (digit_lt_256 _ _))]
      _ = (j :: L).length := by simp

/-! Bucket-boundary lemmas. -/

theorem bucketStart_mono (cnt : Nat → Nat) (a : Nat) {c c' : Nat} (h : c ≤ c') :
    bucketStart cnt a c ≤ bucketStart cnt a c' := by
  unfold bucketStart
  have hsum : (∑ x ∈ Finset.range c, cnt x) ≤ ∑ x ∈ Finset.range c', cnt x :=
    Finset.sum_le_sum_of_subset (Finset.range_subset.mpr h)
  omega

theorem bucketEnd_eq (cnt : Nat → Nat) (a c : Nat) :
    bucketEnd cnt a c = bucketStart cnt a c + cnt c := by
  unfold bucketEnd bucketStart
  rw [Finset.sum_range_succ]
  omega

theorem bucketStart_le_end (cnt : Nat → Nat) (a c : Nat) :
    bucketStart cnt a c ≤ bucketEnd cnt a c := by
  rw [bucketEnd_eq]
  omega

theorem bucketEnd_le_of_lt (cnt : Nat → Nat) (a : Nat) {c c' : Nat} (h : c < c') :
    bucketEnd cnt a c ≤ bucketStart cnt a c' := by
  unfold bucketEnd
  exact bucketStart_mono cnt a h

theorem bucketStart_zero (cnt : Nat → Nat) (a : Nat) : bucketStart cnt a 0 = a := by
  unfold bucketStart
  simp

/-! ## The sweep invariant -/

theorem bump_self (st : Nat → Nat) (c : Nat) : bump st c c = st c + 1 := by
  simp [bump]

theorem bump_other (st : Nat → Nat) (c : Nat) {x : Nat} (h : x ≠ c) :
    bump st c x = st x := by
  simp [bump, h]

theorem sum_gap_bump (E st : Nat → Nat) {c0 : Nat} (h256 : c0 < 256)
    (hlt : st c0 < E c0) :
    (∑ c ∈ Finset.range 256, (E c - bump st c0 c)) + 1 =
      ∑ c ∈ Finset.range 256, (E c - st c) := by
  have hmem : c0 ∈ Finset.range 256 := Finset.mem_range.mpr h256
  rw [← Finset.add_sum_erase _ (fun c => E c - bump st c0 c) hmem,
    ← Finset.add_sum_erase _ (fun c => E c - st c) hmem]
  have hcong : (∑ c ∈ (Finset.range 256).erase c0, (E c - bump st c0 c)) =
      ∑ c ∈ (Finset.range 256).erase c0, (E c - st c) := by
    apply Finset.sum_congr rfl
    intro c hc
    rw [bump_other st c0 (Finset.ne_of_mem_erase hc)]
  rw [hcong, bump_self]
  omega

theorem mem_range'_iv {i a b : Nat} (h1 : a ≤ i) (h2 : i < b) :
    i ∈ List.range' a (b - a) :=
  mem_range'_one.mpr ⟨h1, by omega⟩

/-- Transfer the per-digit counts through the running permutation. -/
theorem countP_digit_of_perm (key : α → Nat) (shift a b : Nat) {f : Nat → α}
    {ref : List α}
    (hperm : List.Perm ((List.range' a (b - a)).map f) ref) (d : Nat) :
    ref.countP (fun x => decide (digit (key x) shift = d)) =
      (List.range' a (b - a)).countP
        (fun i => decide (digit (key (f i)) shift = d)) := by
  rw [← hperm.countP_eq]
  rw [List.countP_map]
  rfl

theorem sweepGo_succ_nil (key : α → Nat) (shift : Nat) (E : Nat → Nat)
    (fuel : Nat) (f : Nat → α) (st : Nat → Nat) :
    sweepGo key shift E (fuel + 1) [] f st = some (f, []) := rfl

theorem sweepGo_succ_cons (key : α → Nat) (shift : Nat) (E : Nat → Nat)
    (fuel cur : Nat) (rest : List Nat) (f : Nat → α) (st : Nat → Nat) :
    sweepGo key shift E (fuel + 1) (cur :: rest) f st =
      if st cur < E cur then
        if digit (key (f (st cur))) shift = cur then
          sweepGo key shift E fuel (cur :: rest) f (bump st cur)
        else
          (sweepGo key shift E fuel (cur :: rest)
            (swapF f (st cur) (st (digit (key (f (st cur))) shift)))
            (bump st (digit (key (f (st cur))) shift))).map
            (fun r => (r.1, (st cur, st (digit (key (f (st cur))) shift)) :: r.2))
      else sweepGo key shift E fuel rest f st := rfl

/-- The sweep invariant lemma: started from a state whose `starts` lie
between the true bucket boundaries, with every settled prefix holding
elements of its own digit, the sweep completes, permutes only `[a, b)`,
lands every position of every bucket on its own digit, and only ever
swaps positions inside `[a, b)`. -/
theorem sweepGo_spec (key : α → Nat) (shift a b : Nat) (cnt : Nat → Nat)
    (ref : List α)
    (hcnt : ∀ c, cnt c = ref.countP (fun x => decide (digit (key x) shift = c)))
    (hE255 : bucketEnd cnt a 255 = b) :
    ∀ (fuel cur : Nat) (f : Nat → α) (st : Nat → Nat),
      cur ≤ 256 →
      (∀ c, bucketStart cnt a c ≤ st c ∧ st c ≤ bucketEnd cnt a c) →
      (∀ c x, bucketStart cnt a c ≤ x → x < st c →
        digit (key (f x)) shift = c) →
      (∀ c, c < cur → st c = bucketEnd cnt a c) →
      List.Perm ((List.range' a (b - a)).map f) ref →
      (∑ c ∈ Finset.range 256, (bucketEnd cnt a c - st c)) + (256 - cur) < fuel →
      ∃ f2 tr,
        sweepGo key shift (bucketEnd cnt a) fuel (List.range' cur (256 - cur))
            f st = some (f2, tr) ∧
        List.Perm ((List.range' a (b - a)).map f2) ref ∧
        (∀ c x, c < 256 → bucketStart cnt a c ≤ x → x < bucketEnd cnt a c →
          digit (key (f2 x)) shift = c) ∧
        (∀ p, p ∈ tr → a ≤ p.1 ∧ p.1 < b ∧ a ≤ p.2 ∧ p.2 < b) ∧
        (∀ x, x < a ∨ b ≤ x → f2 x = f x) := by
  have hSa : ∀ c, a ≤ bucketStart cnt a c := by
    intro c
    have := bucketStart_mono cnt a (Nat.zero_le c)
    rw [bucketStart_zero] at this
    exact this
  have hEb : ∀ c, c < 256 → bucketEnd cnt a c ≤ b := by
    intro c hc
    have h1 : bucketEnd cnt a c = bucketStart cnt a (c + 1) := rfl
    have h2 : bucketEnd cnt a 255 = bucketStart cnt a 256 := rfl
    rw [h1, ← hE255, h2]
    exact bucketStart_mono cnt a (by omega)
  intro fuel
  induction fuel with
  | zero =>
    intro cur f st _ _ _ _ _ hfuel
    omega
  | succ fuel ih =>
    intro cur f st hcur hbound hset hdone hperm hfuel
    rcases Nat.eq_or_lt_of_le hcur with hcur256 | hcurlt
    · -- all buckets processed
      subst hcur256
      rw [show (256 : Nat) - 256 = 0 by omega, List.range'_zero, sweepGo_succ_nil]
      refine ⟨f, [], rfl, hperm, ?_, by simp, fun x _ => rfl⟩
      intro c x hc hx1 hx2
      have hst := hdone c hc
      exact hset c x hx1 (by omega)
    · -- bucket `cur` is active
      have hsplit : List.range' cur (256 - cur) =
          cur :: List.range' (cur + 1) (256 - (cur + 1)) := by
        rw [show (256 : Nat) - cur = (256 - (cur + 1)) + 1 by omega,
          List.range'_succ]
      rw [hsplit, sweepGo_succ_cons]
      by_cases hlt : st cur < bucketEnd cnt a cur
      · rw [if_pos hlt]
        set i := st cur with hi
        set d := digit (key (f i)) shift with hd
        have hd256 : d < 256 := digit_lt_256 _ _
        have hiS : bucketStart cnt a cur ≤ i := (hbound cur).1
        have hia : a ≤ i := le_trans (hSa cur) hiS
        have hib : i < b := lt_of_lt_of_le hlt (hEb cur hcurlt)
        by_cases hdc : d = cur
        · -- element already in its bucket: advance both pointers
          rw [if_pos hdc]
          have hb1 : ∀ c, bucketStart cnt a c ≤ bump st cur c ∧
              bump st cur c ≤ bucketEnd cnt a c := by
            intro c
            by_cases hc : c = cur
            · subst hc
              rw [bump_self]
              exact ⟨by omega, by omega⟩
            · rw [bump_other st cur hc]
              exact hbound c
          have hs1 : ∀ c x, bucketStart cnt a c ≤ x → x < bump st cur c →
              digit (key (f x)) shift = c := by
            intro c x hx1 hx2
            by_cases hc : c = cur
            · rw [hc] at hx1 hx2 ⊢
              rw [bump_self] at hx2
              rcases Nat.lt_or_ge x (st cur) with hx | hx
              · exact hset cur x hx1 hx
              · have hxi : x = i := by omega
                rw [hxi, ← hd, hdc]
            · rw [bump_other st cur hc] at hx2
              exact hset c x hx1 hx2
          have hd1 : ∀ c, c < cur → bump st cur c = bucketEnd cnt a c := by
            intro c hc
            rw [bump_other st cur (by omega)]
            exact hdone c hc
          have hf1 : (∑ c ∈ Finset.range 256,
              (bucketEnd cnt a c - bump st cur c)) + (256 - cur) < fuel := by
            have := sum_gap_bump (bucketEnd cnt a) st hcurlt hlt
            omega
          obtain ⟨f2, tr, heq, hp2, hdig2, htr2, hout2⟩ :=
            ih cur f (bump st cur) hcur hb1 hs1 hd1 hperm hf1
          rw [hsplit] at heq
          exact ⟨f2, tr, heq, hp2, hdig2, htr2, hout2⟩
        · -- move the element to bucket `d`
          rw [if_neg hdc]
          set j := st d with hj
          have hjS : bucketStart cnt a d ≤ j := (hbound d).1
          have hja : a ≤ j := le_trans (hSa d) hjS
          -- the destination bucket has room: counting argument
          have hsd : st d < bucketEnd cnt a d := by
            have hcntd : (List.range' a (b - a)).countP
                (fun x => decide (digit (key (f x)) shift = d)) = cnt d := by
              rw [hcnt d, countP_digit_of_perm key shift a b hperm d]
            have hED : bucketEnd cnt a d = bucketStart cnt a d + cnt d :=
              bucketEnd_eq cnt a d
            have h6 : i < bucketStart cnt a d ∨ st d ≤ i := by
              rcases Nat.lt_or_ge cur d with hcd | hcd
              · left
                exact lt_of_lt_of_le hlt (bucketEnd_le_of_lt cnt a hcd)
              · have hdcur : d < cur := by omega
                right
                calc st d ≤ bucketEnd cnt a d := (hbound d).2
                  _ ≤ bucketStart cnt a cur := bucketEnd_le_of_lt cnt a hdcur
                  _ ≤ i := hiS
            have hbnd := countP_settled_bound
              (fun x => decide (digit (key (f x)) shift = d))
              (hSa d) hjS (le_trans (hbound d).2 (hEb d hd256)) hia hib h6
              (fun x hx1 hx2 => decide_eq_true (hset d x hx1 hx2))
              (decide_eq_true hd.symm)
            omega
          have hij : i ≠ j := by
            rcases Nat.lt_or_ge cur d with hcd | hcd
            · have : i < j := lt_of_lt_of_le hlt
                (le_trans (bucketEnd_le_of_lt cnt a hcd) hjS)
              omega
            · have hdcur : d < cur := by omega
              have : j < i := lt_of_lt_of_le hsd
                (le_trans (bucketEnd_le_of_lt cnt a hdcur) hiS)
              omega
          have hjb : j < b := lt_of_lt_of_le hsd (hEb d hd256)
          -- invariants for the swapped state
          have hb1 : ∀ c, bucketStart cnt a c ≤ bump st d c ∧
              bump st d c ≤ bucketEnd cnt a c := by
            intro c
            by_cases hc : c = d
            · subst hc
              rw [bump_self]
              exact ⟨by omega, by omega⟩
            · rw [bump_other st d hc]
              exact hbound c
          have hs1 : ∀ c x, bucketStart cnt a c ≤ x → x < bump st d c →
              digit (key (swapF f i j x)) shift = c := by
            intro c x hx1 hx2
            by_cases hc : c = d
            · subst hc
              rw [bump_self] at hx2
              rcases Nat.lt_or_ge x (st d) with hx | hx
              · -- old settled prefix of bucket d: untouched by the swap
                have hxi : x ≠ i := by
                  rcases Nat.lt_or_ge cur d with hcd | hcd
                  · have : i < bucketStart cnt a d :=
                      lt_of_lt_of_le hlt (bucketEnd_le_of_lt cnt a hcd)
                    omega
                  · have hdcur : d < cur := by omega
                    have : x < i := by
                      calc x < st d := hx
                        _ ≤ bucketEnd cnt a d := (hbound d).2
                        _ ≤ bucketStart cnt a cur := bucketEnd_le_of_lt cnt a hdcur
                        _ ≤ i := hiS
                    omega
                have hxj : x ≠ j := by omega
                rw [swapF_outside f hxi hxj]
                exact hset d x hx1 hx
              · have hxj : x = j := by omega
                rw [hxj, swapF_snd f hij, ← hd]
            · rw [bump_other st d hc] at hx2
              have hxj : x ≠ j := by
                intro hxeq
                rw [hxeq] at hx1 hx2
                have h1 := hjS
                have h2 : j < bucketEnd cnt a d := hsd
                rcases Nat.lt_or_ge c d with hcd | hcd
                · have : bucketEnd cnt a c ≤ bucketStart cnt a d :=
                    bucketEnd_le_of_lt cnt a hcd
                  have := (hbound c).2
                  omega
                · have hdc2 : d < c := by omega
                  have : bucketEnd cnt a d ≤ bucketStart cnt a c :=
                    bucketEnd_le_of_lt cnt a hdc2
                  omega
              have hxi : x ≠ i := by
                intro hxeq
                rw [hxeq] at hx1 hx2
                by_cases hc2 : c = cur
                · subst hc2
                  omega
                · rcases Nat.lt_or_ge c cur with hcc | hcc
                  · have : bucketEnd cnt a c ≤ bucketStart cnt a cur :=
                      bucketEnd_le_of_lt cnt a hcc
                    have := (hbound c).2
                    omega
                  · have hcc2 : cur < c := by omega
                    have : bucketEnd cnt a cur ≤ bucketStart cnt a c :=
                      bucketEnd_le_of_lt cnt a hcc2
                    omega
              rw [swapF_outside f hxi hxj]
              exact hset c x hx1 hx2
          have hd1 : ∀ c, c < cur → bump st d c = bucketEnd cnt a c := by
            intro c hc
            have hcd : c ≠ d := by
              intro hceq
              have hdn := hdone c hc
              rw [hceq] at hdn
              omega
            rw [bump_other st d hcd]
            exact hdone c hc
          have hp1 : List.Perm ((List.range' a (b - a)).map (swapF f i j)) ref :=
            (swapF_perm f (mem_range'_iv hia hib) (mem_range'_iv hja hjb)).trans
              hperm
          have hf1 : (∑ c ∈ Finset.range 256,
              (bucketEnd cnt a c - bump st d c)) + (256 - cur) < fuel := by
            have := sum_gap_bump (bucketEnd cnt a) st hd256 hsd
            omega
          obtain ⟨f2, tr, heq, hp2, hdig2, htr2, hout2⟩ :=
            ih cur (swapF f i j) (bump st d) hcur hb1 hs1 hd1 hp1 hf1
          rw [hsplit] at heq
          refine ⟨f2, (i, j) :: tr, ?_, hp2, hdig2, ?_, ?_⟩
          · rw [heq]
            rfl
          · intro p hp
            rcases List.mem_cons.mp hp with rfl | hp2'
            · exact ⟨hia, hib, hja, hjb⟩
            · exact htr2 p hp2'
          · intro x hx
            rw [hout2 x hx, swapF_outside f (by omega) (by omega)]
      · -- bucket `cur` exhausted: move on
        rw [if_neg hlt]
        have hd1 : ∀ c, c < cur + 1 → st c = bucketEnd cnt a c := by
          intro c hc
          rcases Nat.lt_or_ge c cur with h | h
          · exact hdone c h
          · have hceq : c = cur := by omega
            subst hceq
            have := (hbound c).2
            omega
        obtain ⟨f2, tr, heq, hp2, hdig2, htr2, hout2⟩ :=
          ih (cur + 1) f st (by omega) hbound hset hd1 hperm (by omega)
        exact ⟨f2, tr, heq, hp2, hdig2, htr2, hout2⟩

/-! ## Assembling the partition correctness -/

/-- Adjacent-pair sortedness of `[a, b)` by the combined order: this is
what `Sort` guarantees and what `check` verifies. -/
def SortedRange (key : α → Nat) (less : α → α → Bool) (f : Nat → α)
    (a b : Nat) : Prop :=
  ∀ i, a ≤ i → i + 1 < b → cLess key less (f (i + 1)) (f i) = false

/-- Every position below the `m`-th bucket boundary lies in some bucket. -/
theorem find_bucket (cnt : Nat → Nat) (a : Nat) :
    ∀ (m j : Nat), a ≤ j → j < bucketStart cnt a m →
      ∃ c, c < m ∧ bucketStart cnt a c ≤ j ∧ j < bucketEnd cnt a c := by
  intro m
  induction m with
  | zero =>
    intro j h1 h2
    rw [bucketStart_zero] at h2
    omega
  | succ m ih =>
    intro j h1 h2
    rcases Nat.lt_or_ge j (bucketStart cnt a m) with h | h
    · obtain ⟨c, hc, hc1, hc2⟩ := ih j h1 h
      exact ⟨c, by omega, hc1, hc2⟩
    · exact ⟨m, by omega, h, h2⟩

/-- A pointwise property of the elements transfers along a segment
permutation. -/
theorem prop_of_seg_perm {f g : Nat → α} {s n : Nat} (P : α → Prop)
    (hperm : List.Perm ((List.range' s n).map f) ((List.range' s n).map g))
    (hP : ∀ y, y ∈ List.range' s n → P (g y)) :
    ∀ x, x ∈ List.range' s n → P (f x) := by
  intro x hx
  have hmem : f x ∈ (List.range' s n).map f := List.mem_map_of_mem f hx
  have hmem2 : f x ∈ (List.range' s n).map g := hperm.mem_iff.mp hmem
  obtain ⟨y, hy, hyeq⟩ := List.mem_map.mp hmem2
  rw [← hyeq]
  exact hP y hy

/-- Final assembly of one partitioning level: if the post-sweep state has
every bucket on its own digit and constant high bits over the range, and
the per-bucket continuation sorts each bucket of size `≥ 2` while only
permuting it, the resulting range is sorted adjacent-pairwise. -/
theorem partition_final (key : α → Nat) (less : α → α → Bool)
    (shift a b H : Nat) (cnt : Nat → Nat) (f2sw f2 : Nat → α)
    (hE255 : bucketEnd cnt a 255 = b)
    (hdigsw : ∀ c x, c < 256 → bucketStart cnt a c ≤ x →
      x < bucketEnd cnt a c → digit (key (f2sw x)) shift = c)
    (hhigh : ∀ x, a ≤ x → x < b → key (f2sw x) >>> (shift + radix) = H)
    (hsegperm : ∀ c, c < 256 →
      List.Perm ((List.range' (bucketStart cnt a c)
          (bucketEnd cnt a c - bucketStart cnt a c)).map f2)
        ((List.range' (bucketStart cnt a c)
          (bucketEnd cnt a c - bucketStart cnt a c)).map f2sw))
    (hsorted : ∀ c, c < 256 → bucketStart cnt a c + 1 < bucketEnd cnt a c →
      SortedRange key less f2 (bucketStart cnt a c) (bucketEnd cnt a c)) :
    SortedRange key less f2 a b := by
  have hSa : ∀ c, a ≤ bucketStart cnt a c := by
    intro c
    have := bucketStart_mono cnt a (Nat.zero_le c)
    rw [bucketStart_zero] at this
    exact this
  have hEb : ∀ c, c < 256 → bucketEnd cnt a c ≤ b := by
    intro c hc
    rw [← hE255]
    exact bucketStart_mono cnt a (by omega)
  -- digit and high-bit structure of the final state, bucket by bucket
  have hprops : ∀ c, c < 256 → ∀ x, bucketStart cnt a c ≤ x →
      x < bucketEnd cnt a c →
      digit (key (f2 x)) shift = c ∧ key (f2 x) >>> (shift + radix) = H := by
    intro c hc
    have hstep := prop_of_seg_perm
      (fun y => digit (key y) shift = c ∧ key y >>> (shift + radix) = H)
      (hsegperm c hc) ?hy
    case hy =>
      intro y hy
      obtain ⟨hy1, hy2⟩ := mem_range'_one.mp hy
      have hyE : y < bucketEnd cnt a c := by omega
      have hya : a ≤ y := le_trans (hSa c) hy1
      have hyb : y < b := lt_of_lt_of_le hyE (hEb c hc)
      exact ⟨hdigsw c y hc hy1 hyE, hhigh y hya hyb⟩
    intro x hx1 hx2
    exact hstep x (mem_range'_iv hx1 (by omega))
  intro i h1 h2
  have hib : i < b := by omega
  have hi1b : i + 1 < b := h2
  have hbS : ∀ j, a ≤ j → j < b → j < bucketStart cnt a 256 := by
    intro j _ hj
    have : bucketEnd cnt a 255 = bucketStart cnt a 256 := rfl
    omega
  obtain ⟨c, hc, hc1, hc2⟩ := find_bucket cnt a 256 i h1 (hbS i h1 hib)
  obtain ⟨c', hc', hc1', hc2'⟩ :=
    find_bucket cnt a 256 (i + 1) (by omega) (hbS (i + 1) (by omega) hi1b)
  rcases Nat.lt_trichotomy c c' with hcc | hcc | hcc
  · -- bucket boundary: keys strictly increase
    have hd1 := (hprops c hc i hc1 hc2).1
    have hh1 := (hprops c hc i hc1 hc2).2
    have hd2 := (hprops c' hc' (i + 1) hc1' hc2').1
    have hh2 := (hprops c' hc' (i + 1) hc1' hc2').2
    have hklt : key (f2 i) < key (f2 (i + 1)) := by
      apply key_lt_of_digit_lt
      · rw [hh1, hh2]
      · rw [hd1, hd2]
        exact hcc
    exact cLess_eq_false_of_key_gt key less hklt
  · -- same bucket: the continuation sorted it
    rw [hcc] at hc1 hc2
    have hsize : bucketStart cnt a c' + 1 < bucketEnd cnt a c' := by omega
    exact hsorted c' hc' hsize i hc1 (by omega)
  · -- impossible: buckets are laid out left to right
    have : bucketEnd cnt a c' ≤ bucketStart cnt a c :=
      bucketEnd_le_of_lt cnt a hcc
    omega

/-- Specification of the per-bucket range loop, given a specification of
the action it runs on each bucket of size `≥ 2`. -/
theorem childFold_spec (key : α → Nat) (less : α → α → Bool) (a b : Nat)
    (cnt : Nat → Nat) (hE255 : bucketEnd cnt a 255 = b)
    (g : Nat → Nat → (Nat → α) → Option (Nat → α))
    (hg : ∀ a2 b2 f3 f4, g a2 b2 f3 = some f4 →
      (∀ x, x < a2 ∨ b2 ≤ x → f4 x = f3 x) ∧
      List.Perm ((List.range' a2 (b2 - a2)).map f4)
        ((List.range' a2 (b2 - a2)).map f3) ∧
      SortedRange key less f4 a2 b2) :
    ∀ (k c : Nat) (f3 f4 : Nat → α), c + k = 256 →
      childFold g ((List.range' c k).map (bucketEnd cnt a))
          (bucketStart cnt a c) f3 = some f4 →
      (∀ x, x < bucketStart cnt a c ∨ b ≤ x → f4 x = f3 x) ∧
      List.Perm ((List.range' (bucketStart cnt a c)
          (b - bucketStart cnt a c)).map f4)
        ((List.range' (bucketStart cnt a c)
          (b - bucketStart cnt a c)).map f3) ∧
      (∀ c2, c ≤ c2 → c2 < 256 →
        List.Perm ((List.range' (bucketStart cnt a c2)
            (bucketEnd cnt a c2 - bucketStart cnt a c2)).map f4)
          ((List.range' (bucketStart cnt a c2)
            (bucketEnd cnt a c2 - bucketStart cnt a c2)).map f3)) ∧
      (∀ c2, c ≤ c2 → c2 < 256 →
        bucketStart cnt a c2 + 1 < bucketEnd cnt a c2 →
        SortedRange key less f4 (bucketStart cnt a c2) (bucketEnd cnt a c2)) := by
  have hEb : ∀ c, c < 256 → bucketEnd cnt a c ≤ b := by
    intro c hc
    rw [← hE255]
    exact bucketStart_mono cnt a (by omega)
  intro k
  induction k with
  | zero =>
    intro c f3 f4 hck h
    have hc256 : c = 256 := by omega
    rw [List.range'_zero, List.map_nil] at h
    have hf : f3 = f4 := by
      have : childFold g ([] : List Nat) (bucketStart cnt a c) f3 = some f3 := rfl
      rw [this] at h
      exact Option.some.inj h
    subst hf
    refine ⟨fun x _ => rfl, List.Perm.refl _, ?_, ?_⟩
    · intro c2 hle hlt
      omega
    · intro c2 hle hlt
      omega
  | succ k ih =>
    intro c f3 f4 hck h
    have hc256 : c < 256 := by omega
    have hsplit : List.range' c (k + 1) = c :: List.range' (c + 1) k :=
      List.range'_succ c k 1
    rw [hsplit, List.map_cons] at h
    have hSE : bucketEnd cnt a c = bucketStart cnt a (c + 1) := rfl
    rw [childFold] at h
    by_cases hbig : bucketEnd cnt a c > bucketStart cnt a c + 1
    · rw [if_pos hbig] at h
      -- the action ran on this bucket
      match hcall : g (bucketStart cnt a c) (bucketEnd cnt a c) f3 with
      | none =>
        rw [hcall] at h
        exact absurd h (by simp)
      | some f3' =>
        rw [hcall] at h
        obtain ⟨hout1, hperm1, hsort1⟩ :=
          hg (bucketStart cnt a c) (bucketEnd cnt a c) f3 f3' hcall
        rw [hSE] at h
        obtain ⟨hout2, hperm2, hsegperm2, hsort2⟩ :=
          ih (c + 1) f3' f4 (by omega) h
        have hagree : ∀ x, bucketStart cnt a c ≤ x → x < bucketEnd cnt a c →
            f4 x = f3' x := by
          intro x hx1 hx2
          apply hout2
          left
          rw [← hSE]
          exact hx2
        refine ⟨?_, ?_, ?_, ?_⟩
        · intro x hx
          have hxe : f4 x = f3' x := by
            apply hout2
            rcases hx with hx | hx
            · left
              have := bucketStart_mono cnt a (show c ≤ c + 1 by omega)
              omega
            · right
              exact hx
          rw [hxe]
          apply hout1
          rcases hx with hx | hx
          · left
            exact hx
          · right
            exact le_trans (hEb c hc256) hx
        · -- global permutation over [S c, b)
          have hS1b : bucketStart cnt a c ≤ bucketEnd cnt a c :=
            bucketStart_le_end cnt a c
          have hS2b : bucketEnd cnt a c ≤ b := hEb c hc256
          have hsplit2 : List.range' (bucketStart cnt a c)
              (b - bucketStart cnt a c) =
              List.range' (bucketStart cnt a c)
                (bucketEnd cnt a c - bucketStart cnt a c) ++
              List.range' (bucketEnd cnt a c) (b - bucketEnd cnt a c) := by
            have happ := List.range'_append_1 (bucketStart cnt a c)
              (bucketEnd cnt a c - bucketStart cnt a c)
              (b - bucketEnd cnt a c)
            rw [show bucketStart cnt a c +
                (bucketEnd cnt a c - bucketStart cnt a c) =
                bucketEnd cnt a c by omega,
              show b - bucketEnd cnt a c +
                (bucketEnd cnt a c - bucketStart cnt a c) =
                b - bucketStart cnt a c by omega] at happ
            exact happ.symm
          rw [hsplit2, List.map_append, List.map_append]
          apply List.Perm.append
          · -- on this bucket: f4 = f3' pointwise, then the call's perm
            have hmc : (List.range' (bucketStart cnt a c)
                (bucketEnd cnt a c - bucketStart cnt a c)).map f4 =
                (List.range' (bucketStart cnt a c)
                  (bucketEnd cnt a c - bucketStart cnt a c)).map f3' := by
              apply List.map_congr_left
              intro x hx
              obtain ⟨hx1, hx2⟩ := mem_range'_one.mp hx
              exact hagree x hx1 (by omega)
            rw [hmc]
            exact hperm1
          · -- beyond: the recursive fold's perm, transported through f3'
            have hmb : (List.range' (bucketEnd cnt a c)
                (b - bucketEnd cnt a c)).map f3' =
                (List.range' (bucketEnd cnt a c)
                  (b - bucketEnd cnt a c)).map f3 := by
              apply List.map_congr_left
              intro x hx
              obtain ⟨hx1, hx2⟩ := mem_range'_one.mp hx
              apply hout1
              right
              exact hx1
            rw [← hSE] at hperm2
            rw [hmb] at hperm2
            exact hperm2
        · -- per-bucket permutations
          intro c2 hle hlt
          rcases Nat.eq_or_lt_of_le hle with hceq | hclt
          · rw [← hceq]
            have hmc : (List.range' (bucketStart cnt a c)
                (bucketEnd cnt a c - bucketStart cnt a c)).map f4 =
                (List.range' (bucketStart cnt a c)
                  (bucketEnd cnt a c - bucketStart cnt a c)).map f3' := by
              apply List.map_congr_left
              intro x hx
              obtain ⟨hx1, hx2⟩ := mem_range'_one.mp hx
              exact hagree x hx1 (by omega)
            rw [hmc]
            exact hperm1
          · have hp := hsegperm2 c2 hclt hlt
            have hmb : (List.range' (bucketStart cnt a c2)
                (bucketEnd cnt a c2 - bucketStart cnt a c2)).map f3' =
                (List.range' (bucketStart cnt a c2)
                  (bucketEnd cnt a c2 - bucketStart cnt a c2)).map f3 := by
              apply List.map_congr_left
              intro x hx
              obtain ⟨hx1, hx2⟩ := mem_range'_one.mp hx
              apply hout1
              right
              calc bucketEnd cnt a c ≤ bucketStart cnt a c2 := by
                    rw [hSE]
                    exact bucketStart_mono cnt a hclt
                _ ≤ x := hx1
            rw [← hmb]
            exact hp
        · -- per-bucket sortedness
          intro c2 hle hlt hsz
          rcases Nat.eq_or_lt_of_le hle with hceq | hclt
          · rw [← hceq] at hsz ⊢
            intro i hi1 hi2
            rw [hagree (i + 1) (by omega) (by omega), hagree i (by omega) (by omega)]
            exact hsort1 i hi1 hi2
          · exact hsort2 c2 hclt hlt hsz
    · rw [if_neg hbig] at h
      rw [hSE] at h
      obtain ⟨hout2, hperm2, hsegperm2, hsort2⟩ :=
        ih (c + 1) f3 f4 (by omega) h
      have hagree : ∀ x, bucketStart cnt a c ≤ x → x < bucketEnd cnt a c →
          f4 x = f3 x := by
        intro x hx1 hx2
        apply hout2
        left
        rw [← hSE]
        exact hx2
      refine ⟨?_, ?_, ?_, ?_⟩
      · intro x hx
        apply hout2
        rcases hx with hx | hx
        · left
          have := bucketStart_mono cnt a (show c ≤ c + 1 by omega)
          omega
        · right
          exact hx
      · have hS1b : bucketStart cnt a c ≤ bucketEnd cnt a c :=
          bucketStart_le_end cnt a c
        have hS2b : bucketEnd cnt a c ≤ b := hEb c hc256
        have hsplit2 : List.range' (bucketStart cnt a c)
            (b - bucketStart cnt a c) =
            List.range' (bucketStart cnt a c)
              (bucketEnd cnt a c - bucketStart cnt a c) ++
            List.range' (bucketEnd cnt a c) (b - bucketEnd cnt a c) := by
          have happ := List.range'_append_1 (bucketStart cnt a c)
            (bucketEnd cnt a c - bucketStart cnt a c)
            (b - bucketEnd cnt a c)
          rw [show bucketStart cnt a c +
              (bucketEnd cnt a c - bucketStart cnt a c) =
              bucketEnd cnt a c by omega,
            show b - bucketEnd cnt a c +
              (bucketEnd cnt a c - bucketStart cnt a c) =
              b - bucketStart cnt a c by omega] at happ
          exact happ.symm
        rw [hsplit2, List.map_append, List.map_append]
        apply List.Perm.append
        · have hmc : (List.range' (bucketStart cnt a c)
              (bucketEnd cnt a c - bucketStart cnt a c)).map f4 =
              (List.range' (bucketStart cnt a c)
                (bucketEnd cnt a c - bucketStart cnt a c)).map f3 := by
            apply List.map_congr_left
            intro x hx
            obtain ⟨hx1, hx2⟩ := mem_range'_one.mp hx
            exact hagree x hx1 (by omega)
          rw [hmc]
        · rw [hSE]
          exact hperm2
      · intro c2 hle hlt
        rcases Nat.eq_or_lt_of_le hle with hceq | hclt
        · rw [← hceq]
          have hmc : (List.range' (bucketStart cnt a c)
              (bucketEnd cnt a c - bucketStart cnt a c)).map f4 =
              (List.range' (bucketStart cnt a c)
                (bucketEnd cnt a c - bucketStart cnt a c)).map f3 := by
            apply List.map_congr_left
            intro x hx
            obtain ⟨hx1, hx2⟩ := mem_range'_one.mp hx
            exact hagree x hx1 (by omega)
          rw [hmc]
        · exact hsegperm2 c2 hclt hlt
      · intro c2 hle hlt hsz
        rcases Nat.eq_or_lt_of_le hle with hceq | hclt
        · rw [← hceq] at hsz
          omega
        · exact hsort2 c2 hclt hlt hsz

/-- One-step unfolding of `radixSort`. -/
theorem radixSort_eq (key : α → Nat) (less : α → α → Bool)
    (fuel shift a b : Nat) (f : Nat → α) :
    radixSort key less fuel shift a b f =
      (if b - a < qSortCutoff then some (qSort key less f a b)
      else
        let cmm := countPass key shift f a b
        let diff := cmm.2.1 ^^^ cmm.2.2
        if diff = 0 then some (qSort key less f a b)
        else if diff >>> shift = 0 ∨ diff >>> (shift + radix) ≠ 0 then
          match fuel with
          | 0 => none
          | fuel + 1 => radixSort key less fuel (bitLen diff - radix) a b f
        else
          match sweepGo key shift (bucketEnd cmm.1 a) (b - a + 257)
              (List.range 256) f (bucketStart cmm.1 a) with
          | none => none
          | some (f2, _) =>
            if shift = 0 then
              childFold (fun a2 b2 f3 => some (qSort key less f3 a2 b2))
                ((List.range 256).map (bucketEnd cmm.1 a)) a f2
            else
              match fuel with
              | 0 => none
              | fuel + 1 =>
                childFold
                  (fun a2 b2 f3 =>
                    radixSort key less fuel
                      (if shift < radix then 0 else shift - radix) a2 b2 f3)
                  ((List.range 256).map (bucketEnd cmm.1 a)) a f2) := by
  rw [radixSort.eq_def]

/-- The three `qSort` guarantees bundled in the shape the engine's
induction uses. -/
theorem qSort_triple (key : α → Nat) (less : α → α → Bool)
    (Hasym : ∀ x y, less x y = true → less y x = false)
    (Hneg : ∀ x y z, less x z = true → less x y = true ∨ less y z = true)
    (f : Nat → α) (a b : Nat) :
    (∀ x, x < a ∨ b ≤ x → qSort key less f a b x = f x) ∧
    List.Perm ((List.range' a (b - a)).map (qSort key less f a b))
      ((List.range' a (b - a)).map f) ∧
    SortedRange key less (qSort key less f a b) a b :=
  ⟨fun _ hx => qSort_outside key less f hx, qSort_perm key less f a b,
    qSort_sorted key less Hasym Hneg f a b⟩

/-- Correctness of `radixSort`: whenever it returns (fuel did not run
out), it has permuted exactly the range `[a, b)` and left it sorted
adjacent-pairwise by the combined order. -/
theorem radixSort_spec (key : α → Nat) (less : α → α → Bool)
    (Hasym : ∀ x y, less x y = true → less y x = false)
    (Hneg : ∀ x y z, less x z = true → less x y = true ∨ less y z = true) :
    ∀ (fuel shift a b : Nat) (f f2 : Nat → α),
      radixSort key less fuel shift a b f = some f2 →
      (∀ x, x < a ∨ b ≤ x → f2 x = f x) ∧
      List.Perm ((List.range' a (b - a)).map f2)
        ((List.range' a (b - a)).map f) ∧
      SortedRange key less f2 a b := by
  intro fuel
  induction fuel using Nat.strong_induction_on with
  | _ fuel ih =>
    intro shift a b f f2 h
    rw [radixSort_eq] at h
    by_cases hsmall : b - a < qSortCutoff
    · rw [if_pos hsmall] at h
      have := Option.some.inj h
      subst this
      exact qSort_triple key less Hasym Hneg f a b
    · rw [if_neg hsmall] at h
      simp only [] at h
      set cm := countPass key shift f a b with hcm
      set diff := cm.2.1 ^^^ cm.2.2 with hdiffdef
      by_cases hdiff : diff = 0
      · rw [if_pos hdiff] at h
        have := Option.some.inj h
        subst this
        exact qSort_triple key less Hasym Hneg f a b
      · rw [if_neg hdiff] at h
        by_cases hguard : diff >>> shift = 0 ∨ diff >>> (shift + radix) ≠ 0
        · -- self-correction: recurse on the same range
          rw [if_pos hguard] at h
          match fuel, h with
          | fuel + 1, h =>
            exact ih fuel (by omega) _ a b f f2 h
        · rw [if_neg hguard] at h
          push_neg at hguard
          obtain ⟨hg1, hg2⟩ := hguard
          -- range facts
          have hcut : qSortCutoff = 128 := by decide
          have hba : a < b := by omega
          -- counts characterize digits of the range
          have hcnt : ∀ c, cm.1 c = ((List.range' a (b - a)).map f).countP
              (fun x => decide (digit (key x) shift = c)) := by
            intro c
            rw [hcm, countPass_cnt]
            rw [List.countP_map]
            rfl
          have hsum : (∑ c ∈ Finset.range 256, cm.1 c) = b - a := by
            calc (∑ c ∈ Finset.range 256, cm.1 c)
                = ∑ c ∈ Finset.range 256, (List.range' a (b - a)).countP
                    (fun i => decide (digit (key (f i)) shift = c)) := by
                  apply Finset.sum_congr rfl
                  intro c _
                  rw [hcm, countPass_cnt]
              _ = (List.range' a (b - a)).length :=
                  sum_countP_digits key shift f _
              _ = b - a := List.length_range' _ _ _
          have hE255 : bucketEnd cm.1 a 255 = b := by
            have h1 : bucketEnd cm.1 a 255 = a + ∑ c ∈ Finset.range 256, cm.1 c :=
              rfl
            omega
          -- run the sweep specification
          have hsw := sweepGo_spec key shift a b cm.1
            ((List.range' a (b - a)).map f) hcnt hE255
            (b - a + 257) 0 f (bucketStart cm.1 a) (by omega)
            (fun c => ⟨le_refl _, bucketStart_le_end cm.1 a c⟩)
            (fun c x hx1 hx2 => by omega)
            (fun c hc => by omega)
            (List.Perm.refl _) ?hfuel
          case hfuel =>
            have hgap : (∑ c ∈ Finset.range 256,
                (bucketEnd cm.1 a c - bucketStart cm.1 a c)) =
                ∑ c ∈ Finset.range 256, cm.1 c := by
              apply Finset.sum_congr rfl
              intro c _
              rw [bucketEnd_eq]
              omega
            omega
          obtain ⟨f2sw, tr, heqsw, hpermsw, hdigsw, htrsw, houtsw⟩ := hsw
          rw [show (256 : Nat) - 0 = 256 by omega, ← List.range_eq_range'] at heqsw
          rw [heqsw] at h
          simp only [] at h
          -- high bits are constant over the range after the sweep
          have hhigh : ∀ x, a ≤ x → x < b →
              key (f2sw x) >>> (shift + radix) = cm.2.1 >>> (shift + radix) := by
            have hstep := prop_of_seg_perm
              (fun y => key y >>> (shift + radix) = cm.2.1 >>> (shift + radix))
              hpermsw ?hy
            case hy =>
              intro y hy
              obtain ⟨hy1, hy2⟩ := mem_range'_one.mp hy
              have hbd := countPass_bounds key shift f hy1
                (show y < b by omega)
              rw [← hcm] at hbd
              exact shiftRight_eq_of_between hg2 hbd.1 hbd.2
            intro x hx1 hx2
            exact hstep x (mem_range'_iv hx1 (by omega))
          -- the two continuation branches
          by_cases hshift : shift = 0
          · rw [if_pos hshift] at h
            rw [List.range_eq_range',
              show a = bucketStart cm.1 a 0 from (bucketStart_zero cm.1 a).symm]
              at h
            have hcf := childFold_spec key less a b cm.1 hE255
              (fun a2 b2 f3 => some (qSort key less f3 a2 b2))
              (fun a2 b2 f3 f4 hf => by
                have := Option.some.inj hf
                subst this
                exact qSort_triple key less Hasym Hneg f3 a2 b2)
              256 0 f2sw f2 (by omega) h
            obtain ⟨hout2, hperm2, hsegperm2, hsort2⟩ := hcf
            rw [bucketStart_zero] at hout2 hperm2
            refine ⟨?_, ?_, ?_⟩
            · intro x hx
              rw [hout2 x hx, houtsw x hx]
            · exact hperm2.trans hpermsw
            · exact partition_final key less shift a b
                (cm.2.1 >>> (shift + radix)) cm.1 f2sw f2 hE255 hdigsw hhigh
                (fun c hc => hsegperm2 c (by omega) hc)
                (fun c hc hsz => hsort2 c (by omega) hc hsz)
          · rw [if_neg hshift] at h
            match fuel, h with
            | fuel + 1, h =>
              rw [List.range_eq_range',
                show a = bucketStart cm.1 a 0 from (bucketStart_zero cm.1 a).symm]
                at h
              have hcf := childFold_spec key less a b cm.1 hE255
                (fun a2 b2 f3 =>
                  radixSort key less fuel
                    (if shift < radix then 0 else shift - radix) a2 b2 f3)
                (fun a2 b2 f3 f4 hf => ih fuel (by omega) _ a2 b2 f3 f4 hf)
                256 0 f2sw f2 (by omega) h
              obtain ⟨hout2, hperm2, hsegperm2, hsort2⟩ := hcf
              rw [bucketStart_zero] at hout2 hperm2
              refine ⟨?_, ?_, ?_⟩
              · intro x hx
                rw [hout2 x hx, houtsw x hx]
              · exact hperm2.trans hpermsw
              · exact partition_final key less shift a b
                  (cm.2.1 >>> (shift + radix)) cm.1 f2sw f2 hE255 hdigsw hhigh
                  (fun c hc => hsegperm2 c (by omega) hc)
                  (fun c hc hsz => hsort2 c (by omega) hc hsz)

/-! ## Unconditional permutation property

The engine moves data only through `Swap` (and the fallback sort
permutes its range), so `radixSort` permutes `[a, b)` for *every*
comparison function, without any strict-weak-order assumption. -/

theorem childFold_perm (a b : Nat) (cnt : Nat → Nat)
    (hE255 : bucketEnd cnt a 255 = b)
    (g : Nat → Nat → (Nat → α) → Option (Nat → α))
    (hg : ∀ a2 b2 f3 f4, g a2 b2 f3 = some f4 →
      (∀ x, x < a2 ∨ b2 ≤ x → f4 x = f3 x) ∧
      List.Perm ((List.range' a2 (b2 - a2)).map f4)
        ((List.range' a2 (b2 - a2)).map f3)) :
    ∀ (k c : Nat) (f3 f4 : Nat → α), c + k = 256 →
      childFold g ((List.range' c k).map (bucketEnd cnt a))
          (bucketStart cnt a c) f3 = some f4 →
      (∀ x, x < bucketStart cnt a c ∨ b ≤ x → f4 x = f3 x) ∧
      List.Perm ((List.range' (bucketStart cnt a c)
          (b - bucketStart cnt a c)).map f4)
        ((List.range' (bucketStart cnt a c)
          (b - bucketStart cnt a c)).map f3) := by
  have hEb : ∀ c, c < 256 → bucketEnd cnt a c ≤ b := by
    intro c hc
    rw [← hE255]
    exact bucketStart_mono cnt a (by omega)
  intro k
  induction k with
  | zero =>
    intro c f3 f4 hck h
    rw [List.range'_zero, List.map_nil] at h
    have hf : f3 = f4 := by
      have heq : childFold g ([] : List Nat) (bucketStart cnt a c) f3 = some f3 :=
        rfl
      rw [heq] at h
      exact Option.some.inj h
    subst hf
    exact ⟨fun x _ => rfl, List.Perm.refl _⟩
  | succ k ih =>
    intro c f3 f4 hck h
    have hc256 : c < 256 := by omega
    rw [List.range'_succ, List.map_cons] at h
    have hSE : bucketEnd cnt a c = bucketStart cnt a (c + 1) := rfl
    rw [childFold] at h
    have hS1b : bucketStart cnt a c ≤ bucketEnd cnt a c :=
      bucketStart_le_end cnt a c
    have hS2b : bucketEnd cnt a c ≤ b := hEb c hc256
    have hsplit2 : List.range' (bucketStart cnt a c) (b - bucketStart cnt a c) =
        List.range' (bucketStart cnt a c)
          (bucketEnd cnt a c - bucketStart cnt a c) ++
        List.range' (bucketEnd cnt a c) (b - bucketEnd cnt a c) := by
      have happ := List.range'_append_1 (bucketStart cnt a c)
        (bucketEnd cnt a c - bucketStart cnt a c) (b - bucketEnd cnt a c)
      rw [show bucketStart cnt a c + (bucketEnd cnt a c - bucketStart cnt a c) =
          bucketEnd cnt a c by omega,
        show b - bucketEnd cnt a c + (bucketEnd cnt a c - bucketStart cnt a c) =
          b - bucketStart cnt a c by omega] at happ
      exact happ.symm
    by_cases hbig : bucketEnd cnt a c > bucketStart cnt a c + 1
    · rw [if_pos hbig] at h
      match hcall : g (bucketStart cnt a c) (bucketEnd cnt a c) f3 with
      | none =>
        rw [hcall] at h
        exact absurd h (by simp)
      | some f3' =>
        rw [hcall] at h
        obtain ⟨hout1, hperm1⟩ :=
          hg (bucketStart cnt a c) (bucketEnd cnt a c) f3 f3' hcall
        rw [hSE] at h
        obtain ⟨hout2, hperm2⟩ := ih (c + 1) f3' f4 (by omega) h
        have hagree : ∀ x, bucketStart cnt a c ≤ x → x < bucketEnd cnt a c →
            f4 x = f3' x := by
          intro x hx1 hx2
          apply hout2
          left
          rw [← hSE]
          exact hx2
        constructor
        · intro x hx
          have hxe : f4 x = f3' x := by
            apply hout2
            rcases hx with hx | hx
            · left
              have := bucketStart_mono cnt a (show c ≤ c + 1 by omega)
              omega
            · right
              exact hx
          rw [hxe]
          apply hout1
          rcases hx with hx | hx
          · left
            exact hx
          · right
            exact le_trans hS2b hx
        · rw [hsplit2, List.map_append, List.map_append]
          apply List.Perm.append
          · have hmc : (List.range' (bucketStart cnt a c)
                (bucketEnd cnt a c - bucketStart cnt a c)).map f4 =
                (List.range' (bucketStart cnt a c)
                  (bucketEnd cnt a c - bucketStart cnt a c)).map f3' := by
              apply List.map_congr_left
              intro x hx
              obtain ⟨hx1, hx2⟩ := mem_range'_one.mp hx
              exact hagree x hx1 (by omega)
            rw [hmc]
            exact hperm1
          · have hmb : (List.range' (bucketEnd cnt a c)
                (b - bucketEnd cnt a c)).map f3' =
                (List.range' (bucketEnd cnt a c)
                  (b - bucketEnd cnt a c)).map f3 := by
              apply List.map_congr_left
              intro x hx
              obtain ⟨hx1, hx2⟩ := mem_range'_one.mp hx
              apply hout1
              right
              exact hx1
            rw [← hSE] at hperm2
            rw [hmb] at hperm2
            exact hperm2
    · rw [if_neg hbig] at h
      rw [hSE] at h
      obtain ⟨hout2, hperm2⟩ := ih (c + 1) f3 f4 (by omega) h
      have hagree : ∀ x, bucketStart cnt a c ≤ x → x < bucketEnd cnt a c →
          f4 x = f3 x := by
        intro x hx1 hx2
        apply hout2
        left
        rw [← hSE]
        exact hx2
      constructor
      · intro x hx
        apply hout2
        rcases hx with hx | hx
        · left
          have := bucketStart_mono cnt a (show c ≤ c + 1 by omega)
          omega
        · right
          exact hx
      · rw [hsplit2, List.map_append, List.map_append]
        apply List.Perm.append
        · have hmc : (List.range' (bucketStart cnt a c)
              (bucketEnd cnt a c - bucketStart cnt a c)).map f4 =
              (List.range' (bucketStart cnt a c)
                (bucketEnd cnt a c - bucketStart cnt a c)).map f3 := by
            apply List.map_congr_left
            intro x hx
            obtain ⟨hx1, hx2⟩ := mem_range'_one.mp hx
            exact hagree x hx1 (by omega)
          rw [hmc]
        · rw [hSE]
          exact hperm2

/-- `radixSort` permutes exactly `[a, b)`, for every `less`. -/
theorem radixSort_perm (key : α → Nat) (less : α → α → Bool) :
    ∀ (fuel shift a b : Nat) (f f2 : Nat → α),
      radixSort key less fuel shift a b f = some f2 →
      (∀ x, x < a ∨ b ≤ x → f2 x = f x) ∧
      List.Perm ((List.range' a (b - a)).map f2)
        ((List.range' a (b - a)).map f) := by
  intro fuel
  induction fuel using Nat.strong_induction_on with
  | _ fuel ih =>
    intro shift a b f f2 h
    rw [radixSort_eq] at h
    by_cases hsmall : b - a < qSortCutoff
    · rw [if_pos hsmall] at h
      have := Option.some.inj h
      subst this
      exact ⟨fun _ hx => qSort_outside key less f hx, qSort_perm key less f a b⟩
    · rw [if_neg hsmall] at h
      simp only [] at h
      set cm := countPass key shift f a b with hcm
      set diff := cm.2.1 ^^^ cm.2.2 with hdiffdef
      by_cases hdiff : diff = 0
      · rw [if_pos hdiff] at h
        have := Option.some.inj h
        subst this
        exact ⟨fun _ hx => qSort_outside key less f hx, qSort_perm key less f a b⟩
      · rw [if_neg hdiff] at h
        by_cases hguard : diff >>> shift = 0 ∨ diff >>> (shift + radix) ≠ 0
        · rw [if_pos hguard] at h
          match fuel, h with
          | fuel + 1, h =>
            exact ih fuel (by omega) _ a b f f2 h
        · rw [if_neg hguard] at h
          push_neg at hguard
          obtain ⟨hg1, hg2⟩ := hguard
          have hcut : qSortCutoff = 128 := by decide
          have hba : a < b := by omega
          have hcnt : ∀ c, cm.1 c = ((List.range' a (b - a)).map f).countP
              (fun x => decide (digit (key x) shift = c)) := by
            intro c
            rw [hcm, countPass_cnt]
            rw [List.countP_map]
            rfl
          have hsum : (∑ c ∈ Finset.range 256, cm.1 c) = b - a := by
            calc (∑ c ∈ Finset.range 256, cm.1 c)
                = ∑ c ∈ Finset.range 256, (List.range' a (b - a)).countP
                    (fun i => decide (digit (key (f i)) shift = c)) := by
                  apply Finset.sum_congr rfl
                  intro c _
                  rw [hcm, countPass_cnt]
              _ = (List.range' a (b - a)).length :=
                  sum_countP_digits key shift f _
              _ = b - a := List.length_range' _ _ _
          have hE255 : bucketEnd cm.1 a 255 = b := by
            have h1 : bucketEnd cm.1 a 255 = a + ∑ c ∈ Finset.range 256, cm.1 c :=
              rfl
            omega
          have hsw := sweepGo_spec key shift a b cm.1
            ((List.range' a (b - a)).map f) hcnt hE255
            (b - a + 257) 0 f (bucketStart cm.1 a) (by omega)
            (fun c => ⟨le_refl _, bucketStart_le_end cm.1 a c⟩)
            (fun c x hx1 hx2 => by omega)
            (fun c hc => by omega)
            (List.Perm.refl _) ?hfuel
          case hfuel =>
            have hgap : (∑ c ∈ Finset.range 256,
                (bucketEnd cm.1 a c - bucketStart cm.1 a c)) =
                ∑ c ∈ Finset.range 256, cm.1 c := by
              apply Finset.sum_congr rfl
              intro c _
              rw [bucketEnd_eq]
              omega
            omega
          obtain ⟨f2sw, tr, heqsw, hpermsw, hdigsw, htrsw, houtsw⟩ := hsw
          rw [show (256 : Nat) - 0 = 256 by omega, ← List.range_eq_range'] at heqsw
          rw [heqsw] at h
          simp only [] at h
          by_cases hshift : shift = 0
          · rw [if_pos hshift] at h
            rw [List.range_eq_range',
              show a = bucketStart cm.1 a 0 from (bucketStart_zero cm.1 a).symm]
              at h
            have hcf := childFold_perm a b cm.1 hE255
              (fun a2 b2 f3 => some (qSort key less f3 a2 b2))
              (fun a2 b2 f3 f4 hf => by
                have := Option.some.inj hf
                subst this
                exact ⟨fun _ hx => qSort_outside key less f3 hx,
                  qSort_perm key less f3 a2 b2⟩)
              256 0 f2sw f2 (by omega) h
            obtain ⟨hout2, hperm2⟩ := hcf
            rw [bucketStart_zero] at hout2 hperm2
            exact ⟨fun x hx => by rw [hout2 x hx, houtsw x hx],
              hperm2.trans hpermsw⟩
          · rw [if_neg hshift] at h
            match fuel, h with
            | fuel + 1, h =>
              rw [List.range_eq_range',
                show a = bucketStart cm.1 a 0 from (bucketStart_zero cm.1 a).symm]
                at h
              have hcf := childFold_perm a b cm.1 hE255
                (fun a2 b2 f3 =>
                  radixSort key less fuel
                    (if shift < radix then 0 else shift - radix) a2 b2 f3)
                (fun a2 b2 f3 f4 hf => ih fuel (by omega) _ a2 b2 f3 f4 hf)
                256 0 f2sw f2 (by omega) h
              obtain ⟨hout2, hperm2⟩ := hcf
              rw [bucketStart_zero] at hout2 hperm2
              exact ⟨fun x hx => by rw [hout2 x hx, houtsw x hx],
                hperm2.trans hpermsw⟩

/-! ## Claims about `Sort` -/

/-- Reading off the two sortedness facts from a false combined
comparison. -/
theorem cLess_false_elim (key : α → Nat) (less : α → α → Bool) {x y : α}
    (h : cLess key less x y = false) :
    key y ≤ key x ∧ (key x = key y → less x y = false) := by
  unfold cLess at h
  rw [Bool.or_eq_false_iff] at h
  obtain ⟨h1, h2⟩ := h
  rw [decide_eq_false_iff_not] at h1
  constructor
  · omega
  · intro hk
    rw [Bool.and_eq_false_iff] at h2
    rcases h2 with h2 | h2
    · rw [decide_eq_false_iff_not] at h2
      exact absurd hk h2
    · exact h2

/-- `Sort` sorts and permutes (under the contract's strict-weak-order
assumptions on `less`). -/
theorem Sort'_spec (key : α → Nat) (less : α → α → Bool)
    (Hasym : ∀ x y, less x y = true → less y x = false)
    (Hneg : ∀ x y z, less x z = true → less x y = true ∨ less y z = true)
    (f f2 : Nat → α) (l : Nat) (h : Sort' key less f l = some f2) :
    (∀ x, l ≤ x → f2 x = f x) ∧
    List.Perm ((List.range' 0 l).map f2) ((List.range' 0 l).map f) ∧
    SortedRange key less f2 0 l := by
  unfold Sort' at h
  by_cases hl : l < qSortCutoff
  · rw [if_pos hl] at h
    have := Option.some.inj h
    subst this
    have ht := qSort_triple key less Hasym Hneg f 0 l
    rw [Nat.sub_zero] at ht
    exact ⟨fun x hx => ht.1 x (Or.inr hx), ht.2.1, ht.2.2⟩
  · rw [if_neg hl] at h
    have ht := radixSort_spec key less Hasym Hneg sortFuel
      (guessInitialShift key f l) 0 l f f2 h
    rw [Nat.sub_zero] at ht
    exact ⟨fun x hx => ht.1 x (Or.inr hx), ht.2.1, ht.2.2⟩

/-- `Sort` permutes, unconditionally. -/
theorem Sort'_perm (key : α → Nat) (less : α → α → Bool)
    (f f2 : Nat → α) (l : Nat) (h : Sort' key less f l = some f2) :
    (∀ x, l ≤ x → f2 x = f x) ∧
    List.Perm ((List.range' 0 l).map f2) ((List.range' 0 l).map f) := by
  unfold Sort' at h
  by_cases hl : l < qSortCutoff
  · rw [if_pos hl] at h
    have := Option.some.inj h
    subst this
    have hp := qSort_perm key less f 0 l
    rw [Nat.sub_zero] at hp
    exact ⟨fun x hx => qSort_outside key less f (Or.inr hx), hp⟩
  · rw [if_neg hl] at h
    have ht := radixSort_perm key less sortFuel
      (guessInitialShift key f l) 0 l f f2 h
    rw [Nat.sub_zero] at ht
    exact ⟨fun x hx => ht.1 x (Or.inr hx), ht.2⟩

/-- **C1, counterexample**: the claim requires `lessSecondary(i-1, i)` to
be *false* on adjacent equal-keyed pairs after sorting, but a sorted
output has its ties in increasing secondary order, i.e.
`lessSecondary(i-1, i)` is typically *true* (it is `lessSecondary(i, i-1)`
that is false).  Sorting the two equal-keyed elements `(0,0), (0,1)` with
`Key = fst` and `Less` comparing the second components leaves them in
place, and `lessSecondary(0, 1)` is true. -/
theorem sort_tie_direction_counterexample :
    (Sort' (fun p : Nat × Nat => p.1) (fun p q => decide (p.2 < q.2))
        (fun i => if i = 0 then (0, 0) else (0, 1)) 2).isSome = true ∧
    (let r := (Sort' (fun p : Nat × Nat => p.1) (fun p q => decide (p.2 < q.2))
        (fun i => if i = 0 then (0, 0) else (0, 1)) 2).getD
        (fun i => if i = 0 then (0, 0) else (0, 1))
     (r 0).1 = (r 1).1 ∧ decide ((r 0).2 < (r 1).2) = true) := by
  constructor
  · rfl
  · constructor
    · rfl
    · rfl

/-- **C1 (amended)**: for every collection satisfying the contract
invariant (`less` a strict weak order, keys primary), if `Sort(data)`
returns, then for every adjacent pair `(i-1, i)`, `Key(i-1) ≤ Key(i)`, and
whenever the keys are equal, `lessSecondary(i, i-1)` is false (ties are in
fallback-sort order; the claim's `lessSecondary(i-1, i)` has the indices
reversed). -/
theorem sort_sorted (key : α → Nat) (less : α → α → Bool)
    (Hasym : ∀ x y, less x y = true → less y x = false)
    (Hneg : ∀ x y z, less x z = true → less x y = true ∨ less y z = true)
    (f f2 : Nat → α) (l : Nat) (h : Sort' key less f l = some f2) :
    ∀ i, 1 ≤ i → i < l →
      key (f2 (i - 1)) ≤ key (f2 i) ∧
      (key (f2 (i - 1)) = key (f2 i) → less (f2 i) (f2 (i - 1)) = false) := by
  intro i h1 h2
  have hsr := (Sort'_spec key less Hasym Hneg f f2 l h).2.2
  have hstep := hsr (i - 1) (Nat.zero_le _) (by omega)
  rw [show i - 1 + 1 = i by omega] at hstep
  have helim := cLess_false_elim key less hstep
  exact ⟨helim.1, fun hk => helim.2 hk.symm⟩

/-- Witness for `sort_sorted` at a concrete input (a 3-element collection
with identity keys and an everywhere-false secondary order). -/
theorem sort_sorted_witness :
    ((fun n : Nat => n) (((Sort' (fun n : Nat => n) (fun _ _ => false)
        (fun i => if i = 0 then 3 else if i = 1 then 1 else 2) 3).getD
        (fun i => if i = 0 then 3 else if i = 1 then 1 else 2)) 0) ≤
      (fun n : Nat => n) (((Sort' (fun n : Nat => n) (fun _ _ => false)
        (fun i => if i = 0 then 3 else if i = 1 then 1 else 2) 3).getD
        (fun i => if i = 0 then 3 else if i = 1 then 1 else 2)) 1)) := by
  have h := sort_sorted (fun n : Nat => n) (fun _ _ => false)
    (fun x y hxy => by simp at hxy)
    (fun x y z hxz => by simp at hxz)
    (fun i => if i = 0 then 3 else if i = 1 then 1 else 2)
    ((Sort' (fun n : Nat => n) (fun _ _ => false)
      (fun i => if i = 0 then 3 else if i = 1 then 1 else 2) 3).getD
      (fun i => if i = 0 then 3 else if i = 1 then 1 else 2)) 3 rfl
  exact (h 1 (by omega) (by omega)).1

/-! ## `SortIndex` (`index.go`) and the permutation claim -/

/-- `SortIndex(data)`: allocate a `Keys` array, fill it through `SetKeys`
(per its contract, entry `i` receives the prefix key `keyOf` of element
`i`), and run `Sort` on the index.  The index state is the zipped pairing
(`Keys[i]`, element `i`): its `Key(i)` is the stored `Keys[i]` (the first
component), its `Swap` exchanges both components as one step, and its
`Less` is the combined order `ki < kj || (ki == kj && data.Less(i, j))`,
which is the engine's combined order for `key = fst`. -/
def SortIndex (keyOf : β → Nat) (less : β → β → Bool) (es : Nat → β)
    (l : Nat) : Option (Nat → Nat × β) :=
  Sort' Prod.fst (fun p q => less p.2 q.2) (fun i => (keyOf (es i), es i)) l

/-- **C3**: `Sort` only rearranges: the multiset of elements of `[0, l)`
is unchanged (the final arrangement is a permutation of the initial one),
for every collection; and `SortIndex` permutes both the underlying data
and its `Keys` array (in lockstep). -/
theorem sort_permutation (key : α → Nat) (less : α → α → Bool)
    (keyOf : β → Nat) (less2 : β → β → Bool) (f : Nat → α) (es : Nat → β)
    (l m : Nat) (f2 : Nat → α) (g2 : Nat → Nat × β)
    (h1 : Sort' key less f l = some f2)
    (h2 : SortIndex keyOf less2 es m = some g2) :
    List.Perm ((List.range' 0 l).map f2) ((List.range' 0 l).map f) ∧
    List.Perm ((List.range' 0 m).map (fun i => (g2 i).1))
      ((List.range' 0 m).map (fun i => keyOf (es i))) ∧
    List.Perm ((List.range' 0 m).map (fun i => (g2 i).2))
      ((List.range' 0 m).map es) := by
  refine ⟨(Sort'_perm key less f f2 l h1).2, ?_, ?_⟩
  · have hp := (Sort'_perm Prod.fst (fun p q => less2 p.2 q.2)
      (fun i => (keyOf (es i), es i)) g2 m h2).2
    have hp2 := hp.map Prod.fst
    rw [List.map_map, List.map_map] at hp2
    exact hp2
  · have hp := (Sort'_perm Prod.fst (fun p q => less2 p.2 q.2)
      (fun i => (keyOf (es i), es i)) g2 m h2).2
    have hp2 := hp.map Prod.snd
    rw [List.map_map, List.map_map] at hp2
    exact hp2

/-- Witness for `sort_permutation` at concrete inputs. -/
theorem sort_permutation_witness :
    List.Perm ((List.range' 0 3).map
        ((Sort' (fun n : Nat => n) (fun _ _ => false)
          (fun i => if i = 0 then 9 else if i = 1 then 4 else 6) 3).getD
          (fun i => if i = 0 then 9 else if i = 1 then 4 else 6)))
      ((List.range' 0 3).map
        (fun i => if i = 0 then 9 else if i = 1 then 4 else 6)) := by
  have h := sort_permutation (fun n : Nat => n) (fun _ _ => false)
    (fun n : Nat => n % 4) (fun x y => decide (x < y))
    (fun i => if i = 0 then 9 else if i = 1 then 4 else 6)
    (fun i => if i = 0 then 5 else 2) 3 2
    ((Sort' (fun n : Nat => n) (fun _ _ => false)
      (fun i => if i = 0 then 9 else if i = 1 then 4 else 6) 3).getD
      (fun i => if i = 0 then 9 else if i = 1 then 4 else 6))
    ((SortIndex (fun n : Nat => n % 4) (fun x y => decide (x < y))
      (fun i => if i = 0 then 5 else 2) 2).getD
      (fun i => ((fun n : Nat => n % 4) ((fun i => if i = 0 then 5 else 2) i),
        (fun i => if i = 0 then 5 else 2) i)))
    rfl rfl
  exact h.1

/-! ## The constant-range fallback path (C6) -/

/-- **C6**: on a range of size `≥ qSortCutoff` whose keys are all equal,
`radixSort` computes `diff = min XOR max = 0` in its counting pass and
delegates the whole range to the fallback sort, returning without any
bucket partitioning. -/
theorem radixSort_constant_range (key : α → Nat) (less : α → α → Bool)
    (fuel shift a b : Nat) (f : Nat → α) (hsize : qSortCutoff ≤ b - a)
    (hkeys : ∀ i j, a ≤ i → i < b → a ≤ j → j < b → key (f i) = key (f j)) :
    radixSort key less fuel shift a b f = some (qSort key less f a b) := by
  have hcut : qSortCutoff = 128 := by decide
  rw [radixSort_eq, if_neg (by omega)]
  simp only []
  have hab : a < b := by omega
  obtain ⟨⟨i0, hi0a, hi0b, hmin⟩, ⟨i1, hi1a, hi1b, hmax⟩⟩ :=
    countPass_attained key shift f hab
  have hz : (countPass key shift f a b).2.1 ^^^ (countPass key shift f a b).2.2
      = 0 := by
    rw [hmin, hmax, hkeys i0 i1 hi0a hi0b hi1a hi1b, Nat.xor_self]
  rw [if_pos hz]

/-- Witness for `radixSort_constant_range`: a constant collection of
length 128 is delegated whole to the fallback sort. -/
theorem radixSort_constant_range_witness :
    radixSort (fun n : Nat => n) (fun x y => decide (x < y)) 64 24 0 128
        (fun _ => 5) =
      some (qSort (fun n : Nat => n) (fun x y => decide (x < y))
        (fun _ => 5) 0 128) :=
  radixSort_constant_range (fun n : Nat => n) (fun x y => decide (x < y))
    64 24 0 128 (fun _ => 5) (by decide) (fun i j _ _ _ _ => rfl)

/-! ## Bit-length loop lemmas -/

theorem bitLenAux_zero : ∀ fuel, bitLenAux fuel 0 = 0 := by
  intro fuel
  cases fuel with
  | zero => rfl
  | succ n => rfl

theorem bitLen8Aux_zero : ∀ fuel, bitLen8Aux fuel 0 = 0 := by
  intro fuel
  cases fuel with
  | zero => rfl
  | succ n => rfl

theorem shiftRight_eq_zero_iff {d s : Nat} : d >>> s = 0 ↔ d < 2 ^ s := by
  rw [Nat.shiftRight_eq_div_pow]
  exact Nat.div_eq_zero_iff (Nat.two_pow_pos s)

theorem bitLenAux_bounds : ∀ (fuel d : Nat), d < 2 ^ fuel → d ≠ 0 →
    1 ≤ bitLenAux fuel d ∧ 2 ^ (bitLenAux fuel d - 1) ≤ d ∧
      d < 2 ^ bitLenAux fuel d := by
  intro fuel
  induction fuel with
  | zero =>
    intro d hd hne
    simp at hd
    omega
  | succ n ih =>
    intro d hd hne
    rw [bitLenAux, if_neg hne]
    by_cases hhalf : d >>> 1 = 0
    · rw [hhalf, bitLenAux_zero]
      have hd2 : d < 2 := by
        have := shiftRight_eq_zero_iff.mp hhalf
        simpa using this
      refine ⟨by omega, ?_, ?_⟩
      · simpa using (by omega : 1 ≤ d)
      · have h2 : (2 : Nat) ^ (0 + 1) = 2 := by norm_num
        omega
    · have hdiv : d >>> 1 = d / 2 := by
        have := Nat.shiftRight_eq_div_pow d 1
        simpa using this
      have hlt : d >>> 1 < 2 ^ n := by
        rw [hdiv]
        rw [pow_succ] at hd
        omega
      obtain ⟨h1, h2, h3⟩ := ih (d >>> 1) hlt hhalf
      set m := bitLenAux n (d >>> 1) with hm
      have h2' : 2 ^ (m - 1) ≤ d / 2 := by
        rw [← hdiv]
        exact h2
      have h3' : d / 2 < 2 ^ m := by
        rw [← hdiv]
        exact h3
      refine ⟨by omega, ?_, ?_⟩
      · have heq : 2 ^ (m + 1 - 1) = 2 * 2 ^ (m - 1) := by
          rw [Nat.add_sub_cancel, ← pow_succ']
          congr 1
          omega
        rw [heq]
        omega
      · have heq : (2 : Nat) ^ (m + 1) = 2 * 2 ^ m := by
          rw [← pow_succ']
        rw [heq]
        omega

theorem bitLen_bounds {d : Nat} (h64 : d < 2 ^ 64) (hne : d ≠ 0) :
    1 ≤ bitLen d ∧ 2 ^ (bitLen d - 1) ≤ d ∧ d < 2 ^ bitLen d :=
  bitLenAux_bounds 64 d h64 hne

theorem bitLen8Aux_bounds : ∀ (fuel d : Nat), d < 2 ^ (8 * fuel) → d ≠ 0 →
    8 ≤ bitLen8Aux fuel d ∧ 2 ^ (bitLen8Aux fuel d - 8) ≤ d ∧
      d < 2 ^ bitLen8Aux fuel d ∧ bitLen8Aux fuel d % 8 = 0 := by
  intro fuel
  induction fuel with
  | zero =>
    intro d hd hne
    simp at hd
    omega
  | succ n ih =>
    intro d hd hne
    rw [bitLen8Aux, if_neg hne]
    have hrad : radix = 8 := rfl
    rw [hrad]
    by_cases hbyte : d >>> 8 = 0
    · rw [hbyte, bitLen8Aux_zero]
      have hd256 : d < 2 ^ 8 := shiftRight_eq_zero_iff.mp hbyte
      refine ⟨by omega, ?_, ?_, by omega⟩
      · simpa using (by omega : 1 ≤ d)
      · simpa using hd256
    · have hdiv : d >>> 8 = d / 2 ^ 8 := Nat.shiftRight_eq_div_pow d 8
      have hlt : d >>> 8 < 2 ^ (8 * n) := by
        rw [hdiv]
        apply Nat.div_lt_of_lt_mul
        calc d < 2 ^ (8 * (n + 1)) := hd
          _ = 2 ^ 8 * 2 ^ (8 * n) := by
            rw [← pow_add]
            congr 1
            omega
      obtain ⟨h1, h2, h3, h4⟩ := ih (d >>> 8) hlt hbyte
      set m := bitLen8Aux n (d >>> 8) with hm
      have h2' : 2 ^ (m - 8) ≤ d / 2 ^ 8 := by
        rw [← hdiv]
        exact h2
      have h3' : d / 2 ^ 8 < 2 ^ m := by
        rw [← hdiv]
        exact h3
      refine ⟨by omega, ?_, ?_, by omega⟩
      · have heq : 2 ^ (m + 8 - 8) = 2 ^ 8 * 2 ^ (m - 8) := by
          rw [← pow_add]
          congr 1
          omega
        rw [heq]
        have hmul := Nat.mul_le_mul_left (2 ^ 8) h2'
        have hdm := Nat.div_mul_le_self d (2 ^ 8)
        calc 2 ^ 8 * 2 ^ (m - 8)
            ≤ 2 ^ 8 * (d / 2 ^ 8) := hmul
          _ = d / 2 ^ 8 * 2 ^ 8 := by ring
          _ ≤ d := hdm
      · have heq : (2 : Nat) ^ (m + 8) = 2 ^ 8 * 2 ^ m := by
          rw [← pow_add]
          congr 1
          omega
        rw [heq]
        have hdm := Nat.div_add_mod d (2 ^ 8)
        have hmod : d % 2 ^ 8 < 2 ^ 8 := Nat.mod_lt d (by norm_num)
        have hmul : 2 ^ 8 * (d / 2 ^ 8) < 2 ^ 8 * 2 ^ m :=
          (Nat.mul_lt_mul_left (show 0 < 2 ^ 8 by norm_num)).mpr h3'
        omega

theorem bitLen8_bounds {d : Nat} (h64 : d < 2 ^ 64) (hne : d ≠ 0) :
    8 ≤ bitLen8 d ∧ 2 ^ (bitLen8 d - 8) ≤ d ∧ d < 2 ^ bitLen8 d ∧
      bitLen8 d % 8 = 0 :=
  bitLen8Aux_bounds 8 d h64 hne

/-- The radix-stepped loop returns the highest-set-bit position rounded
*down* to a multiple of 8, plus 8 — so subtracting one radix width gives
exactly the rounded-down position, with no further reduction. -/
theorem bitLen8_sub_radix {d : Nat} (h64 : d < 2 ^ 64) (hne : d ≠ 0) :
    bitLen8 d - radix = 8 * ((bitLen d - 1) / 8) := by
  obtain ⟨hb1, hb2, hb3⟩ := bitLen_bounds h64 hne
  obtain ⟨h81, h82, h83, h84⟩ := bitLen8_bounds h64 hne
  have hrad : radix = 8 := rfl
  -- the highest set bit position p = bitLen d - 1 lies in [bitLen8 d - 8, bitLen8 d)
  have hlow : bitLen8 d - 8 ≤ bitLen d - 1 := by
    by_contra hc
    push_neg at hc
    have : bitLen d ≤ bitLen8 d - 8 := by omega
    have hpow : (2 : Nat) ^ bitLen d ≤ 2 ^ (bitLen8 d - 8) :=
      Nat.pow_le_pow_right (by norm_num) this
    omega
  have hhighb : bitLen d - 1 < bitLen8 d := by
    by_contra hc
    push_neg at hc
    have hpow : (2 : Nat) ^ bitLen8 d ≤ 2 ^ (bitLen d - 1) :=
      Nat.pow_le_pow_right (by norm_num) hc
    omega
  rw [hrad]
  omega

/-! ## The shift estimator (C5) -/

theorem gmFold_le (key : α → Nat) (f : Nat → α) :
    ∀ (L : List Nat) (st : Nat × Nat),
      (L.foldl (gmStep key f) st).1 ≤ st.1 ∧ st.2 ≤ (L.foldl (gmStep key f) st).2 := by
  intro L
  induction L with
  | nil => intro st; exact ⟨le_refl _, le_refl _⟩
  | cons i L ih =>
    intro st
    rw [List.foldl_cons]
    have h := ih (gmStep key f st i)
    unfold gmStep at h
    constructor
    · apply le_trans h.1
      dsimp only
      split <;> omega
    · apply le_trans _ h.2
      dsimp only
      split <;> omega

theorem gmFold_bounds (key : α → Nat) (f : Nat → α) :
    ∀ (L : List Nat) (st : Nat × Nat) (i : Nat), i ∈ L →
      (L.foldl (gmStep key f) st).1 ≤ key (f i) ∧
        key (f i) ≤ (L.foldl (gmStep key f) st).2 := by
  intro L
  induction L with
  | nil => intro st i hi; exact absurd hi (List.not_mem_nil i)
  | cons j L ih =>
    intro st i hi
    rw [List.foldl_cons]
    rcases List.mem_cons.mp hi with rfl | hi2
    · have h := gmFold_le key f L (gmStep key f st i)
      unfold gmStep at h
      dsimp only at h
      constructor
      · apply le_trans h.1
        split <;> omega
      · apply le_trans _ h.2
        split <;> omega
    · exact ih _ i hi2

theorem gmFold_attained_min (key : α → Nat) (f : Nat → α) :
    ∀ (L : List Nat) (st : Nat × Nat),
      (L.foldl (gmStep key f) st).1 = st.1 ∨
      ∃ i ∈ L, (L.foldl (gmStep key f) st).1 = key (f i) := by
  intro L
  induction L with
  | nil => intro st; exact Or.inl rfl
  | cons j L ih =>
    intro st
    rw [List.foldl_cons]
    rcases ih (gmStep key f st j) with h | ⟨i, hi, h⟩
    · have hst : (gmStep key f st j).1 =
          if key (f j) < st.1 then key (f j) else st.1 := rfl
      rw [hst] at h
      by_cases hj : key (f j) < st.1
      · rw [if_pos hj] at h
        exact Or.inr ⟨j, List.mem_cons_self j L, h⟩
      · rw [if_neg hj] at h
        exact Or.inl h
    · exact Or.inr ⟨i, List.mem_cons_of_mem j hi, h⟩

theorem gmFold_attained_max (key : α → Nat) (f : Nat → α) :
    ∀ (L : List Nat) (st : Nat × Nat),
      (L.foldl (gmStep key f) st).2 = st.2 ∨
      ∃ i ∈ L, (L.foldl (gmStep key f) st).2 = key (f i) := by
  intro L
  induction L with
  | nil => intro st; exact Or.inl rfl
  | cons j L ih =>
    intro st
    rw [List.foldl_cons]
    rcases ih (gmStep key f st j) with h | ⟨i, hi, h⟩
    · have hst : (gmStep key f st j).2 =
          if key (f j) > st.2 then key (f j) else st.2 := rfl
      rw [hst] at h
      by_cases hj : key (f j) > st.2
      · rw [if_pos hj] at h
        exact Or.inr ⟨j, List.mem_cons_self j L, h⟩
      · rw [if_neg hj] at h
        exact Or.inl h
    · exact Or.inr ⟨i, List.mem_cons_of_mem j hi, h⟩

/-- The shift formula exactly as the claim words it: the position of the
highest set bit of the sampled XOR, rounded down to a multiple of 8,
*and additionally reduced by 8* (clamped at 0); 0 when the sampled min
equals the sampled max.  (Stated for refutation; the code performs no
such final reduction.) -/
def claimedGuessShift (key : α → Nat) (f : Nat → α) (l : Nat) : Nat :=
  let init := key (f (l - 1))
  let mm := (sampleIndices l).foldl (gmStep key f) (init, init)
  if mm.1 = mm.2 then 0 else 8 * ((bitLen (mm.1 ^^^ mm.2) - 1) / 8) - 8

/-- **C5, counterexample**: on the 160-element collection that is 256 at
index 0 and 0 elsewhere (identity keys), the sampled min/max are 0/256,
whose XOR has its highest set bit at position 8; the code returns shift 8
(the position rounded down to a multiple of 8), *not* the claim's
`8 - 8 = 0`. -/
theorem guessInitialShift_counterexample :
    guessInitialShift (fun n : Nat => n)
        (fun i => if i = 0 then 256 else 0) 160 = 8 ∧
      claimedGuessShift (fun n : Nat => n)
        (fun i => if i = 0 then 256 else 0) 160 = 0 := by
  constructor
  · rfl
  · rfl

/-- **C5 (amended)**: `guessInitialShift` samples at stride `l/32`
(`l/256` when `l > 65536`, and at least 1), seeds min and max with the
last element's key so the last element is always included, and returns 0
when the sampled min and max agree; otherwise it returns the position of
the highest set bit of `min XOR max` rounded down to a multiple of 8 —
with no further reduction by 8 (the loop already counts one radix width
past the top bit, and the final subtraction of 8 only cancels that). -/
theorem guessInitialShift_characterization (key : α → Nat) (f : Nat → α)
    (l : Nat) (hkey : ∀ x, key x < 2 ^ 64) (hl : 1 ≤ l) :
    guessStep l = max 1 (if 65536 < l then l / 256 else l / 32) ∧
    ((((sampleIndices l).foldl (gmStep key f)
        (key (f (l - 1)), key (f (l - 1)))).1 ≤ key (f (l - 1)) ∧
      key (f (l - 1)) ≤ ((sampleIndices l).foldl (gmStep key f)
        (key (f (l - 1)), key (f (l - 1)))).2) ∧
      (∀ i ∈ sampleIndices l,
        (((sampleIndices l).foldl (gmStep key f)
          (key (f (l - 1)), key (f (l - 1)))).1 ≤ key (f i) ∧
        key (f i) ≤ ((sampleIndices l).foldl (gmStep key f)
          (key (f (l - 1)), key (f (l - 1)))).2))) ∧
    guessInitialShift key f l =
      (if (((sampleIndices l).foldl (gmStep key f)
            (key (f (l - 1)), key (f (l - 1)))).1 =
          ((sampleIndices l).foldl (gmStep key f)
            (key (f (l - 1)), key (f (l - 1)))).2) then 0
        else 8 * ((bitLen
          ((((sampleIndices l).foldl (gmStep key f)
            (key (f (l - 1)), key (f (l - 1)))).1) ^^^
          (((sampleIndices l).foldl (gmStep key f)
            (key (f (l - 1)), key (f (l - 1)))).2)) - 1) / 8)) := by
  refine ⟨?_, ⟨?_, ?_⟩, ?_⟩
  · unfold guessStep
    have h16 : (1 : Nat) <<< 16 = 65536 := by decide
    have h5 : l >>> 5 = l / 32 := by
      rw [Nat.shiftRight_eq_div_pow]
    have h8 : l >>> 8 = l / 256 := by
      rw [Nat.shiftRight_eq_div_pow]
    rw [h16]
    by_cases hbig : 65536 < l
    · rw [if_pos hbig, if_pos hbig, h8]
      have : l / 256 ≠ 0 := by
        have : 256 ≤ l := by omega
        have := Nat.le_div_iff_mul_le (show 0 < 256 by norm_num) |>.mpr
          (show 1 * 256 ≤ l by omega)
        omega
      rw [if_neg this]
      omega
    · rw [if_neg hbig, if_neg hbig, h5]
      by_cases hz : l / 32 = 0
      · rw [if_pos hz]
        omega
      · rw [if_neg hz]
        omega
  · exact ⟨(gmFold_le key f (sampleIndices l)
        (key (f (l - 1)), key (f (l - 1)))).1,
      (gmFold_le key f (sampleIndices l)
        (key (f (l - 1)), key (f (l - 1)))).2⟩
  · intro i hi
    exact gmFold_bounds key f _ _ i hi
  · set st := (sampleIndices l).foldl (gmStep key f)
      (key (f (l - 1)), key (f (l - 1))) with hst
    have hmn64 : st.1 < 2 ^ 64 := by
      rcases gmFold_attained_min key f (sampleIndices l)
        (key (f (l - 1)), key (f (l - 1))) with h | ⟨i, _, h⟩
      · rw [← hst] at h
        rw [h]
        exact hkey _
      · rw [← hst] at h
        rw [h]
        exact hkey _
    have hmx64 : st.2 < 2 ^ 64 := by
      rcases gmFold_attained_max key f (sampleIndices l)
        (key (f (l - 1)), key (f (l - 1))) with h | ⟨i, _, h⟩
      · rw [← hst] at h
        rw [h]
        exact hkey _
      · rw [← hst] at h
        rw [h]
        exact hkey _
    have hguess : guessInitialShift key f l = bitLen8 (st.1 ^^^ st.2) - radix :=
      rfl
    rw [hguess]
    by_cases heq : st.1 = st.2
    · rw [if_pos heq, heq, Nat.xor_self]
      rfl
    · rw [if_neg heq]
      have hxne : st.1 ^^^ st.2 ≠ 0 := by
        intro hz
        exact heq (Nat.xor_eq_zero.mp hz)
      have hx64 : st.1 ^^^ st.2 < 2 ^ 64 := Nat.xor_lt_two_pow hmn64 hmx64
      exact bitLen8_sub_radix hx64 hxne

/-- Witness for `guessInitialShift_characterization` at a concrete
input. -/
theorem guessInitialShift_characterization_witness :
    guessStep 2 = max 1 (if 65536 < 2 then 2 / 256 else 2 / 32) := by
  have h := guessInitialShift_characterization (fun n : Nat => n % 4)
    (fun i => i) 2 (fun x => by show x % 4 < 2 ^ 64; omega) (by omega)
  exact h.1

/-! ## Termination: the recursion depth is bounded (C4) -/

/-- `countPass`'s running min/max do not depend on the shift (only the
bucket counts do). -/
theorem cpFold_snd_congr (key : α → Nat) (s1 s2 : Nat) (f : Nat → α) :
    ∀ (L : List Nat) (st1 st2 : (Nat → Nat) × Nat × Nat), st1.2 = st2.2 →
      (L.foldl (cpStep key s1 f) st1).2 = (L.foldl (cpStep key s2 f) st2).2 := by
  intro L
  induction L with
  | nil => intro st1 st2 h; exact h
  | cons i L ih =>
    intro st1 st2 h
    rw [List.foldl_cons, List.foldl_cons]
    apply ih
    unfold cpStep
    dsimp only
    rw [show st1.2.1 = st2.2.1 by rw [h], show st1.2.2 = st2.2.2 by rw [h]]

theorem countPass_snd_congr (key : α → Nat) (s1 s2 : Nat) (f : Nat → α)
    (a b : Nat) :
    (countPass key s1 f a b).2 = (countPass key s2 f a b).2 := by
  unfold countPass
  exact cpFold_snd_congr key s1 s2 f _ _ _ rfl

/-- Agreement of shifted keys is monotone in the shift. -/
theorem shiftRight_agree_mono {k1 k2 t t' : Nat} (h : k1 >>> t = k2 >>> t)
    (hle : t ≤ t') : k1 >>> t' = k2 >>> t' := by
  rw [show t' = t + (t' - t) by omega, Nat.shiftRight_add, Nat.shiftRight_add, h]

/-- If all keys of a nonempty range agree above bit `T`, the counting
pass's min-XOR-max vanishes above bit `T`. -/
theorem countPass_xor_of_agree (key : α → Nat) (shift : Nat) (f : Nat → α)
    {a b T : Nat} (hab : a < b)
    (hagree : ∀ x y, a ≤ x → x < b → a ≤ y → y < b →
      key (f x) >>> T = key (f y) >>> T) :
    ((countPass key shift f a b).2.1 ^^^ (countPass key shift f a b).2.2) >>> T
      = 0 := by
  obtain ⟨⟨i0, hi0a, hi0b, hmin⟩, ⟨i1, hi1a, hi1b, hmax⟩⟩ :=
    countPass_attained key shift f hab
  rw [hmin, hmax, shiftRight_xor_distrib,
    hagree i0 i1 hi0a hi0b hi1a hi1b, Nat.xor_self]

/-- A per-bucket action that always succeeds makes the bucket loop
succeed. -/
theorem childFold_total (g : Nat → Nat → (Nat → α) → Option (Nat → α))
    (hg : ∀ a2 b2 f3, (g a2 b2 f3).isSome) :
    ∀ (cs : List Nat) (pos : Nat) (f3 : Nat → α),
      (childFold g cs pos f3).isSome := by
  intro cs
  induction cs with
  | nil => intro pos f3; rfl
  | cons e rest ih =>
    intro pos f3
    rw [childFold]
    by_cases hbig : e > pos + 1
    · rw [if_pos hbig]
      match hcall : g pos e f3 with
      | none =>
        have := hg pos e f3
        rw [hcall] at this
        exact absurd this (by simp)
      | some f4 => exact ih e f4
    · rw [if_neg hbig]
      exact ih e f3

/-- The bucket loop succeeds when the per-bucket action succeeds on every
range whose keys agree above bit `T`, provided every bucket's keys agree
above `T` and the action only modifies its own range. -/
theorem childFold_some (key : α → Nat) (a b T : Nat) (cnt : Nat → Nat)
    (hE255 : bucketEnd cnt a 255 = b)
    (g : Nat → Nat → (Nat → α) → Option (Nat → α))
    (hg : ∀ a2 b2 f3, a2 + 1 < b2 → b2 ≤ b →
      (∀ x y, a2 ≤ x → x < b2 → a2 ≤ y → y < b2 →
        key (f3 x) >>> T = key (f3 y) >>> T) →
      ∃ f4, g a2 b2 f3 = some f4 ∧ (∀ x, x < a2 ∨ b2 ≤ x → f4 x = f3 x)) :
    ∀ (k c : Nat) (f3 : Nat → α), c + k = 256 →
      (∀ c2 x y, c ≤ c2 → c2 < 256 →
        bucketStart cnt a c2 ≤ x → x < bucketEnd cnt a c2 →
        bucketStart cnt a c2 ≤ y → y < bucketEnd cnt a c2 →
        key (f3 x) >>> T = key (f3 y) >>> T) →
      (childFold g ((List.range' c k).map (bucketEnd cnt a))
        (bucketStart cnt a c) f3).isSome := by
  have hEb : ∀ c, c < 256 → bucketEnd cnt a c ≤ b := by
    intro c hc
    rw [← hE255]
    exact bucketStart_mono cnt a (by omega)
  intro k
  induction k with
  | zero =>
    intro c f3 hck hQ
    rw [List.range'_zero, List.map_nil]
    rfl
  | succ k ih =>
    intro c f3 hck hQ
    have hc256 : c < 256 := by omega
    rw [List.range'_succ, List.map_cons, childFold]
    have hSE : bucketEnd cnt a c = bucketStart cnt a (c + 1) := rfl
    by_cases hbig : bucketEnd cnt a c > bucketStart cnt a c + 1
    · rw [if_pos hbig]
      obtain ⟨f4, hcall, hout⟩ := hg (bucketStart cnt a c) (bucketEnd cnt a c)
        f3 hbig (hEb c hc256)
        (fun x y hx1 hx2 hy1 hy2 => hQ c x y (le_refl c) hc256 hx1 hx2 hy1 hy2)
      rw [hcall, hSE]
      apply ih (c + 1) f4 (by omega)
      intro c2 x y hc2 hc2' hx1 hx2 hy1 hy2
      have hEc : bucketEnd cnt a c ≤ bucketStart cnt a c2 := by
        rw [hSE]
        exact bucketStart_mono cnt a hc2
      rw [hout x (Or.inr (by omega)), hout y (Or.inr (by omega))]
      exact hQ c2 x y (by omega) hc2' hx1 hx2 hy1 hy2
    · rw [if_neg hbig, hSE]
      apply ih (c + 1) f3 (by omega)
      intro c2 x y hc2 hc2' hx1 hx2 hy1 hy2
      exact hQ c2 x y (by omega) hc2' hx1 hx2 hy1 hy2

/-- The per-digit counts, in element form. -/
theorem countPass_cnt_map (key : α → Nat) (shift : Nat) (f : Nat → α)
    (a b c : Nat) :
    (countPass key shift f a b).1 c = ((List.range' a (b - a)).map f).countP
      (fun x => decide (digit (key x) shift = c)) := by
  rw [countPass_cnt]
  rw [List.countP_map]
  rfl

/-- The 256 bucket boundaries exactly cover `[a, b)`. -/
theorem bucketEnd_255 (key : α → Nat) (shift : Nat) (f : Nat → α)
    {a b : Nat} (hab : a ≤ b) :
    bucketEnd (countPass key shift f a b).1 a 255 = b := by
  have hsum : (∑ c ∈ Finset.range 256, (countPass key shift f a b).1 c)
      = b - a := by
    calc (∑ c ∈ Finset.range 256, (countPass key shift f a b).1 c)
        = ∑ c ∈ Finset.range 256, (List.range' a (b - a)).countP
            (fun i => decide (digit (key (f i)) shift = c)) := by
          apply Finset.sum_congr rfl
          intro c _
          rw [countPass_cnt]
      _ = (List.range' a (b - a)).length := sum_countP_digits key shift f _
      _ = b - a := List.length_range' _ _ _
  have h1 : bucketEnd (countPass key shift f a b).1 a 255 =
      a + ∑ c ∈ Finset.range 256, (countPass key shift f a b).1 c := rfl
  omega

/-- Packaged run of the sweep from `radixSort`'s call site. -/
theorem sweep_run (key : α → Nat) (shift a b : Nat) (f : Nat → α)
    (hab : a ≤ b) :
    ∃ f2sw tr,
      sweepGo key shift (bucketEnd (countPass key shift f a b).1 a)
          (b - a + 257) (List.range 256) f
          (bucketStart (countPass key shift f a b).1 a) = some (f2sw, tr) ∧
      List.Perm ((List.range' a (b - a)).map f2sw)
        ((List.range' a (b - a)).map f) ∧
      (∀ c x, c < 256 → bucketStart (countPass key shift f a b).1 a c ≤ x →
        x < bucketEnd (countPass key shift f a b).1 a c →
        digit (key (f2sw x)) shift = c) ∧
      (∀ p, p ∈ tr → a ≤ p.1 ∧ p.1 < b ∧ a ≤ p.2 ∧ p.2 < b) ∧
      (∀ x, x < a ∨ b ≤ x → f2sw x = f x) := by
  have hsw := sweepGo_spec key shift a b (countPass key shift f a b).1
    ((List.range' a (b - a)).map f) (countPass_cnt_map key shift f a b)
    (bucketEnd_255 key shift f hab)
    (b - a + 257) 0 f (bucketStart (countPass key shift f a b).1 a) (by omega)
    (fun c => ⟨le_refl _, bucketStart_le_end _ a c⟩)
    (fun c x hx1 hx2 => by omega)
    (fun c hc => by omega)
    (List.Perm.refl _) ?hfuel
  case hfuel =>
    have hgap : (∑ c ∈ Finset.range 256,
        (bucketEnd (countPass key shift f a b).1 a c -
          bucketStart (countPass key shift f a b).1 a c)) =
        ∑ c ∈ Finset.range 256, (countPass key shift f a b).1 c := by
      apply Finset.sum_congr rfl
      intro c _
      rw [bucketEnd_eq]
      omega
    have hsum : (∑ c ∈ Finset.range 256, (countPass key shift f a b).1 c)
        = b - a := by
      have hE := bucketEnd_255 key shift f hab
      have h1 : bucketEnd (countPass key shift f a b).1 a 255 =
          a + ∑ c ∈ Finset.range 256, (countPass key shift f a b).1 c := rfl
      omega
    omega
  obtain ⟨f2sw, tr, heqsw, hpermsw, hdigsw, htrsw, houtsw⟩ := hsw
  rw [show (256 : Nat) - 0 = 256 by omega, ← List.range_eq_range'] at heqsw
  exact ⟨f2sw, tr, heqsw, hpermsw, hdigsw, htrsw, houtsw⟩

/-- After the sweep, all keys of the range agree above `shift + radix`
with the counting pass's minimum (given the partition guard). -/
theorem sweep_high_const (key : α → Nat) (shift a b : Nat) (f f2sw : Nat → α)
    (hperm : List.Perm ((List.range' a (b - a)).map f2sw)
      ((List.range' a (b - a)).map f))
    (hg2 : ((countPass key shift f a b).2.1 ^^^ (countPass key shift f a b).2.2)
      >>> (shift + radix) = 0) :
    ∀ x, a ≤ x → x < b → key (f2sw x) >>> (shift + radix) =
      (countPass key shift f a b).2.1 >>> (shift + radix) := by
  have hstep := prop_of_seg_perm
    (fun y => key y >>> (shift + radix) =
      (countPass key shift f a b).2.1 >>> (shift + radix))
    hperm ?hy
  case hy =>
    intro y hy
    obtain ⟨hy1, hy2⟩ := mem_range'_one.mp hy
    have hbd := countPass_bounds key shift f hy1 (show y < b by omega)
    exact shiftRight_eq_of_between hg2 hbd.1 hbd.2
  intro x hx1 hx2
  exact hstep x (mem_range'_iv hx1 (by omega))

/-- **Fuel sufficiency**: a `radixSort` call whose shift is not too low
(the exact range XOR vanishes above `shift + 8`) succeeds with fuel
`(shift + 7) / 8` — one unit per remaining digit level, one
self-correction maximum in between. -/
theorem radixSort_some (key : α → Nat) (less : α → α → Bool)
    (hkey : ∀ x, key x < 2 ^ 64) :
    ∀ (fuel shift a b : Nat) (f : Nat → α),
      ((countPass key shift f a b).2.1 ^^^ (countPass key shift f a b).2.2) >>>
        (shift + radix) = 0 →
      (shift + 7) / 8 ≤ fuel →
      (radixSort key less fuel shift a b f).isSome := by
  have hrad : radix = 8 := rfl
  intro fuel
  induction fuel using Nat.strong_induction_on with
  | _ fuel ih =>
    intro shift a b f hgood hfuel
    rw [radixSort_eq]
    by_cases hsmall : b - a < qSortCutoff
    · rw [if_pos hsmall]
      rfl
    · rw [if_neg hsmall]
      simp only []
      set cm := countPass key shift f a b with hcm
      set diff := cm.2.1 ^^^ cm.2.2 with hdiffdef
      by_cases hdiff : diff = 0
      · rw [if_pos hdiff]
        rfl
      · rw [if_neg hdiff]
        have hcut : qSortCutoff = 128 := by decide
        have hab : a < b := by omega
        have hd64 : diff < 2 ^ 64 := by
          obtain ⟨⟨i0, _, _, hmin⟩, ⟨i1, _, _, hmax⟩⟩ :=
            countPass_attained key shift f hab
          rw [hdiffdef, hcm, hmin, hmax]
          exact Nat.xor_lt_two_pow (hkey _) (hkey _)
        by_cases hguard : diff >>> shift = 0 ∨ diff >>> (shift + radix) ≠ 0
        · -- self-correction
          rw [if_pos hguard]
          have hg1 : diff >>> shift = 0 := by
            rcases hguard with h | h
            · exact h
            · exact absurd hgood h
          have hs1 : 1 ≤ shift := by
            rcases Nat.eq_zero_or_pos shift with h | h
            · rw [h] at hg1
              simp at hg1
              exact absurd hg1 hdiff
            · exact h
          have hfuel1 : 1 ≤ fuel := by
            have : 1 ≤ (shift + 7) / 8 := by omega
            omega
          match fuel, hfuel1 with
          | n + 1, _ =>
            obtain ⟨hL1, hL2, hL3⟩ := bitLen_bounds hd64 hdiff
            have hdlt : diff < 2 ^ shift := shiftRight_eq_zero_iff.mp hg1
            have hLs : bitLen diff ≤ shift := by
              by_contra hc
              push_neg at hc
              have : (2 : Nat) ^ shift ≤ 2 ^ (bitLen diff - 1) :=
                Nat.pow_le_pow_right (by norm_num) (by omega)
              omega
            set t := bitLen diff - radix with ht
            have hgood2 : ((countPass key t f a b).2.1 ^^^
                (countPass key t f a b).2.2) >>> (t + radix) = 0 := by
              have hsnd := countPass_snd_congr key t shift f a b
              have h1 : (countPass key t f a b).2.1 = cm.2.1 := by
                rw [hcm]
                rw [hsnd]
              have h2 : (countPass key t f a b).2.2 = cm.2.2 := by
                rw [hcm]
                rw [hsnd]
              rw [h1, h2, ← hdiffdef]
              apply shiftRight_eq_zero_iff.mpr
              calc diff < 2 ^ bitLen diff := hL3
                _ ≤ 2 ^ (t + radix) := by
                  apply Nat.pow_le_pow_right (by norm_num)
                  rw [ht, hrad]
                  omega
            apply ih n (by omega) t a b f hgood2
            rw [ht, hrad]
            omega
        · -- partition
          rw [if_neg hguard]
          push_neg at hguard
          obtain ⟨hg1, hg2⟩ := hguard
          obtain ⟨f2sw, tr, heqsw, hpermsw, hdigsw, htrsw, houtsw⟩ :=
            sweep_run key shift a b f (by omega)
          rw [← hcm] at heqsw
          rw [heqsw]
          simp only []
          have hhigh := sweep_high_const key shift a b f f2sw hpermsw
            (by rw [← hcm, ← hdiffdef]; exact hg2)
          rw [← hcm] at hhigh
          -- keys agree within each bucket, above every level ≥ shift
          have hagreeK : ∀ c2 x y, c2 < 256 →
              bucketStart cm.1 a c2 ≤ x → x < bucketEnd cm.1 a c2 →
              bucketStart cm.1 a c2 ≤ y → y < bucketEnd cm.1 a c2 →
              key (f2sw x) >>> shift = key (f2sw y) >>> shift := by
            intro c2 x y hc2 hx1 hx2 hy1 hy2
            have hSa : a ≤ bucketStart cm.1 a c2 := by
              have := bucketStart_mono cm.1 a (Nat.zero_le c2)
              rw [bucketStart_zero] at this
              exact this
            have hEb : bucketEnd cm.1 a c2 ≤ b := by
              rw [← bucketEnd_255 key shift f (show a ≤ b by omega), ← hcm]
              exact bucketStart_mono cm.1 a (by omega)
            have hdx := hdigsw c2 x hc2 hx1 hx2
            have hdy := hdigsw c2 y hc2 hy1 hy2
            have hhx := hhigh x (by omega) (by omega)
            have hhy := hhigh y (by omega) (by omega)
            rw [shiftRight_eq_digit_decomp (key (f2sw x)) shift,
              shiftRight_eq_digit_decomp (key (f2sw y)) shift,
              hdx, hdy, hhx, hhy]
          by_cases hshift : shift = 0
          · rw [if_pos hshift]
            exact childFold_total (fun a2 b2 f3 => some (qSort key less f3 a2 b2))
              (fun a2 b2 f3 => rfl) _ a f2sw
          · rw [if_neg hshift]
            have hs1 : 1 ≤ shift := by omega
            have hfuel1 : 1 ≤ fuel := by
              have : 1 ≤ (shift + 7) / 8 := by omega
              omega
            match fuel, hfuel1 with
            | n + 1, _ =>
              set s2 := if shift < radix then 0 else shift - radix with hs2
              have hT : shift ≤ s2 + radix := by
                rw [hs2, hrad]
                by_cases hc : shift < 8
                · rw [if_pos hc]
                  omega
                · rw [if_neg hc]
                  omega
              have hsome := childFold_some key a b (s2 + radix) cm.1
                (by rw [hcm]; exact bucketEnd_255 key shift f (by omega))
                (fun a2 b2 f3 => radixSort key less n s2 a2 b2 f3) ?hg
                256 0 f2sw (by omega) ?hQ
              case hg =>
                intro a2 b2 f3 hbig hb2b hagree
                have hgood3 := countPass_xor_of_agree key s2 f3
                  (show a2 < b2 by omega) hagree
                have hfb : (s2 + 7) / 8 ≤ n := by
                  rw [hs2]
                  by_cases hc : shift < radix
                  · rw [if_pos hc]
                    rw [hrad] at hc
                    omega
                  · rw [if_neg hc]
                    rw [hrad] at hc ⊢
                    omega
                have hiso := ih n (by omega) s2 a2 b2 f3 hgood3 hfb
                obtain ⟨f4, hf4⟩ := Option.isSome_iff_exists.mp hiso
                exact ⟨f4, hf4,
                  (radixSort_perm key less n s2 a2 b2 f3 f4 hf4).1⟩
              case hQ =>
                intro c2 x y hc20 hc2 hx1 hx2 hy1 hy2
                exact shiftRight_agree_mono
                  (hagreeK c2 x y hc2 hx1 hx2 hy1 hy2) hT
              rw [bucketStart_zero, ← List.range_eq_range'] at hsome
              exact hsome

/-- The guessed starting shift never exceeds 56 for 64-bit keys. -/
theorem guessInitialShift_le (key : α → Nat) (f : Nat → α) (l : Nat)
    (hkey : ∀ x, key x < 2 ^ 64) :
    guessInitialShift key f l ≤ 56 := by
  have hrad : radix = 8 := rfl
  have hm1 : ((sampleIndices l).foldl (gmStep key f)
      (key (f (l - 1)), key (f (l - 1)))).1 < 2 ^ 64 := by
    rcases gmFold_attained_min key f (sampleIndices l)
        (key (f (l - 1)), key (f (l - 1))) with h | ⟨i, _, h⟩
    · rw [h]
      exact hkey _
    · rw [h]
      exact hkey _
  have hm2 : ((sampleIndices l).foldl (gmStep key f)
      (key (f (l - 1)), key (f (l - 1)))).2 < 2 ^ 64 := by
    rcases gmFold_attained_max key f (sampleIndices l)
        (key (f (l - 1)), key (f (l - 1))) with h | ⟨i, _, h⟩
    · rw [h]
      exact hkey _
    · rw [h]
      exact hkey _
  show bitLen8 (((sampleIndices l).foldl (gmStep key f)
      (key (f (l - 1)), key (f (l - 1)))).1 ^^^
    ((sampleIndices l).foldl (gmStep key f)
      (key (f (l - 1)), key (f (l - 1)))).2) - radix ≤ 56
  set x := ((sampleIndices l).foldl (gmStep key f)
      (key (f (l - 1)), key (f (l - 1)))).1 ^^^
    ((sampleIndices l).foldl (gmStep key f)
      (key (f (l - 1)), key (f (l - 1)))).2 with hx
  have hx64 : x < 2 ^ 64 := Nat.xor_lt_two_pow hm1 hm2
  by_cases hz : x = 0
  · rw [hz]
    decide
  · obtain ⟨h81, h82, h83, h84⟩ := bitLen8_bounds hx64 hz
    have hle : bitLen8 x - 8 ≤ 63 := by
      by_contra hc
      push_neg at hc
      have hpow : (2 : Nat) ^ 64 ≤ 2 ^ (bitLen8 x - 8) :=
        Nat.pow_le_pow_right (by norm_num) (by omega)
      omega
    rw [hrad]
    omega

/-- Any `radixSort` call with starting shift at most 56 completes with
fuel 9: eight digit levels plus at most one self-correction, exactly the
spec's depth bound. -/
theorem radixSort_top (key : α → Nat) (less : α → α → Bool)
    (hkey : ∀ x, key x < 2 ^ 64) (fuel shift a b : Nat) (f : Nat → α)
    (hshift : shift ≤ 56) (hfuel : 9 ≤ fuel) :
    (radixSort key less fuel shift a b f).isSome := by
  have hrad : radix = 8 := rfl
  by_cases hgood : ((countPass key shift f a b).2.1 ^^^
      (countPass key shift f a b).2.2) >>> (shift + radix) = 0
  · exact radixSort_some key less hkey fuel shift a b f hgood (by omega)
  · rw [radixSort_eq]
    by_cases hsmall : b - a < qSortCutoff
    · rw [if_pos hsmall]
      rfl
    · rw [if_neg hsmall]
      simp only []
      set cm := countPass key shift f a b with hcm
      set diff := cm.2.1 ^^^ cm.2.2 with hdiffdef
      have hdiff : diff ≠ 0 := by
        intro h
        apply hgood
        rw [h]
        simp
      rw [if_neg hdiff, if_pos (Or.inr hgood)]
      have hfuel1 : 1 ≤ fuel := by omega
      match fuel, hfuel, hfuel1 with
      | n + 1, hfuel, _ =>
        have hcut : qSortCutoff = 128 := by decide
        have hab : a < b := by omega
        have hd64 : diff < 2 ^ 64 := by
          obtain ⟨⟨i0, _, _, hmin⟩, ⟨i1, _, _, hmax⟩⟩ :=
            countPass_attained key shift f hab
          rw [hdiffdef, hcm, hmin, hmax]
          exact Nat.xor_lt_two_pow (hkey _) (hkey _)
        obtain ⟨hL1, hL2, hL3⟩ := bitLen_bounds hd64 hdiff
        have hL64 : bitLen diff ≤ 64 := by
          by_contra hc
          push_neg at hc
          have hpow : (2 : Nat) ^ 64 ≤ 2 ^ (bitLen diff - 1) :=
            Nat.pow_le_pow_right (by norm_num) (by omega)
          omega
        set t := bitLen diff - radix with ht
        have hgood2 : ((countPass key t f a b).2.1 ^^^
            (countPass key t f a b).2.2) >>> (t + radix) = 0 := by
          have hsnd := countPass_snd_congr key t shift f a b
          have h1 : (countPass key t f a b).2.1 = cm.2.1 := by
            rw [hcm]
            rw [hsnd]
          have h2 : (countPass key t f a b).2.2 = cm.2.2 := by
            rw [hcm]
            rw [hsnd]
          rw [h1, h2, ← hdiffdef]
          apply shiftRight_eq_zero_iff.mpr
          calc diff < 2 ^ bitLen diff := hL3
            _ ≤ 2 ^ (t + radix) := by
              apply Nat.pow_le_pow_right (by norm_num)
              rw [ht, hrad]
              omega
        apply radixSort_some key less hkey n t a b f hgood2
        rw [ht, hrad]
        omega

/-- **C4**: `Sort(data)` terminates for every collection with 64-bit
keys.  The entry point returns a result (never exhausts its fuel), and
the spec's depth bound is exact: fuel 9 — eight digit levels plus at
most one self-correction — already suffices for the engine's top-level
call at the guessed shift. -/
theorem sort_terminates (key : α → Nat) (less : α → α → Bool)
    (f : Nat → α) (l : Nat) (hkey : ∀ x, key x < 2 ^ 64) :
    (Sort' key less f l).isSome ∧
      (radixSort key less 9 (guessInitialShift key f l) 0 l f).isSome := by
  constructor
  · unfold Sort'
    by_cases hl : l < qSortCutoff
    · rw [if_pos hl]
      rfl
    · rw [if_neg hl]
      exact radixSort_top key less hkey sortFuel _ 0 l f
        (guessInitialShift_le key f l hkey) (by decide)
  · exact radixSort_top key less hkey 9 _ 0 l f
      (guessInitialShift_le key f l hkey) (le_refl 9)

/-- **C4, witness**: termination at a concrete instance — 130 elements
with key `n % 4`. -/
theorem sort_terminates_witness :
    (∀ x : Nat, x % 4 < 2 ^ 64) ∧
      ((Sort' (fun n : Nat => n % 4) (fun _ _ => false)
          (fun n => n) 130).isSome ∧
        (radixSort (fun n : Nat => n % 4) (fun _ _ => false) 9
          (guessInitialShift (fun n : Nat => n % 4) (fun n => n) 130)
          0 130 (fun n => n)).isSome) :=
  ⟨fun x => by show x % 4 < 2 ^ 64; omega,
    sort_terminates (fun n : Nat => n % 4) (fun _ _ => false)
      (fun n => n) 130 (fun x => by show x % 4 < 2 ^ 64; omega)⟩

/-! ## The index pairing invariant (`index.go`) -/

/-- `index.Swap(i, j)`: exchange `Keys[i]` with `Keys[j]` and the two
underlying data elements in one indivisible operation.  The state of an
`index` is the pair of its `Keys` array and the underlying collection,
both as function states over positions. -/
def idxSwap (st : (Nat → Nat) × (Nat → β)) (i j : Nat) :
    (Nat → Nat) × (Nat → β) :=
  (swapF st.1 i j, swapF st.2 i j)

/-- The pairing invariant of `SortIndex`: at every position below `n`,
the stored key is the prefix key of the element currently located
there. -/
def Paired (keyOf : β → Nat) (st : (Nat → Nat) × (Nat → β)) (n : Nat) :
    Prop :=
  ∀ i, i < n → st.1 i = keyOf (st.2 i)

/-- States reachable from a starting index state through any sequence of
in-range `index.Swap` operations (the only state changes the engine
performs on an index). -/
inductive SwapReach (n : Nat) :
    ((Nat → Nat) × (Nat → β)) → ((Nat → Nat) × (Nat → β)) → Prop
  | refl (st : (Nat → Nat) × (Nat → β)) : SwapReach n st st
  | step (st st2 : (Nat → Nat) × (Nat → β)) (i j : Nat) :
      i < n → j < n → SwapReach n st st2 → SwapReach n st (idxSwap st2 i j)

/-- `swapIdx` keeps in-range positions in range. -/
theorem swapIdx_lt {n i j : Nat} (hi : i < n) (hj : j < n) :
    ∀ p, p < n → swapIdx i j p < n := by
  intro p hp
  unfold swapIdx
  by_cases h1 : p = i
  · rw [if_pos h1]
    exact hj
  · rw [if_neg h1]
    by_cases h2 : p = j
    · rw [if_pos h2]
      exact hi
    · rw [if_neg h2]
      exact hp

/-- One in-range `index.Swap` preserves the pairing invariant. -/
theorem paired_idxSwap (keyOf : β → Nat) (st : (Nat → Nat) × (Nat → β))
    {n i j : Nat} (hi : i < n) (hj : j < n)
    (h : Paired keyOf st n) : Paired keyOf (idxSwap st i j) n := by
  intro p hp
  have h1 : (idxSwap st i j).1 p = st.1 (swapIdx i j p) := by
    show swapF st.1 i j p = st.1 (swapIdx i j p)
    rw [swapF_eq_comp]
  have h2 : (idxSwap st i j).2 p = st.2 (swapIdx i j p) := by
    show swapF st.2 i j p = st.2 (swapIdx i j p)
    rw [swapF_eq_comp]
  rw [h1, h2]
  exact h (swapIdx i j p) (swapIdx_lt hi hj p hp)

/-- **C8**: the pairing invariant of `SortIndex`.  `index.Swap`
exchanges `Keys[i]` with `Keys[j]` and elements `i` and `j` as one
transposition of both components; one in-range swap preserves the
pairing invariant, hence so does every sequence of in-range swaps; and
the initial state — `Keys` freshly filled by the string builder's
`SetKeys` over a zeroed array at offset 0 — satisfies the invariant. -/
theorem index_pairing (keyOf : β → Nat) (st : (Nat → Nat) × (Nat → β))
    (n i j : Nat) (hi : i < n) (hj : j < n) :
    ((∀ x, (idxSwap st i j).1 x = st.1 (swapIdx i j x)) ∧
      (∀ x, (idxSwap st i j).2 x = st.2 (swapIdx i j x))) ∧
    (Paired keyOf st n → Paired keyOf (idxSwap st i j) n) ∧
    (∀ st2, Paired keyOf st n → SwapReach n st st2 →
      Paired keyOf st2 n) ∧
    (∀ (strs : List (List Nat)) (r : List Nat),
      setKeysStr strs (List.replicate strs.length 0) 0 = some r →
      Paired stringKey
        (fun p => r.getD p 0, fun p => strs.getD p []) strs.length) := by
  refine ⟨⟨?_, ?_⟩, paired_idxSwap keyOf st hi hj, ?_, ?_⟩
  · intro x
    show swapF st.1 i j x = st.1 (swapIdx i j x)
    rw [swapF_eq_comp]
  · intro x
    show swapF st.2 i j x = st.2 (swapIdx i j x)
    rw [swapF_eq_comp]
  · intro st2 h hreach
    induction hreach with
    | refl => exact h
    | step st4 i2 j2 hi2 hj2 hreach2 ih =>
      exact paired_idxSwap keyOf st4 hi2 hj2 ih
  · intro strs r hr
    obtain ⟨r', hr', hlen, hspec⟩ :=
      setKeysGo_spec stringKey strs (List.replicate strs.length 0) 0
        (Nat.zero_le _)
    rw [setKeysStr] at hr
    rw [hr] at hr'
    have hrr : r = r' := Option.some.inj hr'
    intro p hp
    show r.getD p 0 = stringKey (strs.getD p [])
    have hpk : p < (List.replicate strs.length (0 : Nat)).length := by
      simpa using hp
    have hs := hspec p hpk
    rw [hrr, hs, if_pos (by omega : 0 + p < strs.length)]
    rw [Nat.zero_add]

/-- **C8, witness**: the pairing statement at a concrete index state
(`n = 2`, identity keys over `Nat` data). -/
theorem index_pairing_witness :
    (0 < 2 ∧ 1 < 2) ∧
    (((∀ x, (idxSwap ((fun p => p), (fun p => p)) 0 1).1 x =
        (fun p : Nat => p) (swapIdx 0 1 x)) ∧
      (∀ x, (idxSwap ((fun p => p), (fun p => p)) 0 1).2 x =
        (fun p : Nat => p) (swapIdx 0 1 x))) ∧
    (Paired (fun b : Nat => b) ((fun p => p), (fun p => p)) 2 →
      Paired (fun b : Nat => b)
        (idxSwap ((fun p => p), (fun p => p)) 0 1) 2) ∧
    (∀ st2, Paired (fun b : Nat => b) ((fun p => p), (fun p => p)) 2 →
      SwapReach 2 ((fun p => p), (fun p => p)) st2 →
      Paired (fun b : Nat => b) st2 2) ∧
    (∀ (strs : List (List Nat)) (r : List Nat),
      setKeysStr strs (List.replicate strs.length 0) 0 = some r →
      Paired stringKey
        (fun p => r.getD p 0, fun p => strs.getD p []) strs.length)) :=
  ⟨⟨by decide, by decide⟩,
    index_pairing (fun b : Nat => b) ((fun p => p), (fun p => p)) 2 0 1
      (by decide) (by decide)⟩

/-! ## Index-range safety of the engine's own accesses -/

/-- The sampling stride is always at least 1. -/
theorem guessStep_pos (l : Nat) : 1 ≤ guessStep l := by
  show 1 ≤ if (if l > 1 <<< 16 then l >>> 8 else l >>> 5) = 0 then 1
    else (if l > 1 <<< 16 then l >>> 8 else l >>> 5)
  by_cases h : (if l > 1 <<< 16 then l >>> 8 else l >>> 5) = 0
  · rw [if_pos h]
  · rw [if_neg h]
    omega

/-- Every index of the strided sampling loop is in range — on the empty
collection the loop body never runs at all. -/
theorem sampleIndices_lt (l : Nat) : ∀ i ∈ sampleIndices l, i < l := by
  intro i hi
  have hstep := guessStep_pos l
  rw [sampleIndices, List.mem_range'] at hi
  obtain ⟨k, hk, hik⟩ := hi
  have hc : sampleCount l (guessStep l) =
      (l + guessStep l - 1) / guessStep l := rfl
  rw [hc] at hk
  set s := guessStep l with hs
  by_cases hl : 1 ≤ l
  · have hfin : s * k + s ≤ l + s - 1 := by
      calc s * k + s = s * (k + 1) := by ring
        _ ≤ s * ((l + s - 1) / s) := Nat.mul_le_mul_left s (by omega)
        _ = (l + s - 1) / s * s := by ring
        _ ≤ l + s - 1 := Nat.div_mul_le_self _ s
    obtain ⟨m, hm⟩ : ∃ m, m = s * k := ⟨s * k, rfl⟩
    rw [← hm] at hfin
    rw [hik, ← hm]
    omega
  · have hl0 : l = 0 := by omega
    rw [hl0] at hk
    have hz : (0 + s - 1) / s = 0 := Nat.div_eq_of_lt (by omega)
    rw [hz] at hk
    omega

/-- **C10**: for every collection length `l ≥ 0`, the engine's own
accesses stay in range.  The strided scan of `guessInitialShift` visits
only indices below `l` (vacuously on the empty collection), and its
seed access to `Key(l - 1)` is in range whenever `Sort` actually
invokes it (`l ≥ qSortCutoff`); every swap the bucket-permutation sweep
performs at `radixSort`'s call site has both positions inside `[a, b)`;
and on a collection below the cutoff — in particular an empty or
single-element one — `Sort` delegates to the fallback without entering
the radix path, so it performs no radix-path element access there. -/
theorem engine_index_bounds (key : α → Nat) (less : α → α → Bool)
    (f : Nat → α) (l : Nat) :
    ((qSortCutoff ≤ l → l - 1 < l) ∧ ∀ i ∈ sampleIndices l, i < l) ∧
    (∀ (shift a b : Nat) (g f2 : Nat → α) (tr : List (Nat × Nat)),
      a ≤ b →
      sweepGo key shift (bucketEnd (countPass key shift g a b).1 a)
        (b - a + 257) (List.range 256) g
        (bucketStart (countPass key shift g a b).1 a) = some (f2, tr) →
      ∀ p ∈ tr, a ≤ p.1 ∧ p.1 < b ∧ a ≤ p.2 ∧ p.2 < b) ∧
    (l < qSortCutoff → Sort' key less f l = some (qSort key less f 0 l)) := by
  have hcut : qSortCutoff = 128 := by decide
  refine ⟨⟨by omega, sampleIndices_lt l⟩, ?_, ?_⟩
  · intro shift a b g f2 tr hab hsw
    obtain ⟨f2sw, tr', heq, _, _, htr, _⟩ := sweep_run key shift a b g hab
    rw [heq] at hsw
    have hp := Option.some.inj hsw
    have htr2 : tr' = tr := congrArg Prod.snd hp
    rw [← htr2]
    exact htr
  · intro h
    unfold Sort'
    rw [if_pos h]

/-- **C10, witness**: the range-safety statement instantiated at the
empty collection (`l = 0`) with identity keys — the case where the
radix path is never entered and the sampling loop never runs. -/
theorem engine_index_bounds_witness :
    ((qSortCutoff ≤ 0 → 0 - 1 < 0) ∧ ∀ i ∈ sampleIndices 0, i < 0) ∧
    (∀ (shift a b : Nat) (g f2 : Nat → Nat) (tr : List (Nat × Nat)),
      a ≤ b →
      sweepGo (fun n : Nat => n) shift
        (bucketEnd (countPass (fun n : Nat => n) shift g a b).1 a)
        (b - a + 257) (List.range 256) g
        (bucketStart (countPass (fun n : Nat => n) shift g a b).1 a) =
        some (f2, tr) →
      ∀ p ∈ tr, a ≤ p.1 ∧ p.1 < b ∧ a ≤ p.2 ∧ p.2 < b) ∧
    (0 < qSortCutoff →
      Sort' (fun n : Nat => n) (fun _ _ => false) (fun n => n) 0 =
        some (qSort (fun n : Nat => n) (fun _ _ => false)
          (fun n => n) 0 0)) :=
  engine_index_bounds (fun n : Nat => n) (fun _ _ => false)
    (fun n => n) 0

end Radix
